import Mathlib

/-!
Resizable string lists of ctags: a shallow embedding of `src/main/strlist.c`.

* The `stringList` record is the C `struct` (`max`, `count`, `list`). The backing
  storage `list` is either `NULL` (`none`) or an allocated block of slots (`some block`);
  the length of `block` is the number of slots that were allocated, and every access
  outside the block is the fault `Fault.outOfBounds`.
* A slot holds a `vString*`: `NULL`, a pointer to a live string, or the indeterminate
  content of storage that `xMalloc`/`xRealloc` returned and nobody wrote yet.
* `unsigned int` values are natural numbers below `UINT_RANGE = 2^32`; every C operation
  that can wrap is written with an explicit `% UINT_RANGE`. `int` values are integers, the
  conversions between the two are `toInt` and `toUnsigned`.
* A function takes the record its `stringList*` argument points to, so the handle
  is never `NULL` and `Assert (current != NULL)` always holds; the other assertions are
  checked and a failed one is the fault `Fault.assertion`.
* Loops are recursive functions on a fuel argument that carry the C loop condition
  unchanged; each caller passes more fuel than the loop can use, which the theorem about
  the loop establishes.
-/

namespace Strlist

/-! ## Faults, strings and pointers -/

/-- The ways in which a call can fail to return. -/
inductive Fault where
  /-- an `Assert` condition was false -/
  | assertion
  /-- a `NULL` pointer was dereferenced -/
  | nullPointer
  /-- a pointer with indeterminate value was dereferenced or released -/
  | wildPointer
  /-- a slot outside the allocated block (or in a `NULL` block) was read or written -/
  | outOfBounds
  /-- a loop was given too little fuel -/
  | outOfFuel
  deriving DecidableEq, Repr

/-- Modelled from the spec: the dynamic string type of `vstring.h` (not under `src/`), the
opaque "Text" capability; the only thing this module reads from it is its text. -/
structure vString where
  buffer : String
  deriving DecidableEq, Repr

/-- A value of type `vString*`. -/
inductive vStringPtr where
  /-- the pointer `NULL` -/
  | NULL
  /-- the content of a slot that was allocated and never written -/
  | indeterminate
  /-- a pointer to a live string -/
  | valid (v : vString)
  deriving DecidableEq, Repr

deriving instance DecidableEq for Except

/-- Number of values of a C `unsigned int` (32 bits). -/
def UINT_RANGE : Nat := 4294967296

/-- Conversion `unsigned int` to `int` (two's complement). -/
def toInt (u : Nat) : Int :=
  if u < 2147483648 then (u : Int) else (u : Int) - 4294967296

/-- Conversion `int` to `unsigned int`. -/
def toUnsigned (i : Int) : Nat := (i % 4294967296).toNat

/-- Modelled from the spec: the `Assert` macro of `debug.h` (not under `src/`), "an assertion
mechanism that halts execution in debug builds". -/
def Assert (c : Bool) : Except Fault Unit :=
  if c then pure () else throw Fault.assertion

/-- Modelled from the spec: `vStringValue` of `vstring.h` (not under `src/`), the raw text of
a string; it dereferences its argument. -/
def vStringValue : vStringPtr → Except Fault String
  | .NULL => throw Fault.nullPointer
  | .indeterminate => throw Fault.wildPointer
  | .valid v => pure v.buffer

/-- Modelled from the spec: `vStringDelete` of `vstring.h` (not under `src/`), the release of
an owned string; releasing `NULL` does nothing (which is what `stringListCombine` relies
on when it nulls the slots it moved). -/
def vStringDelete : vStringPtr → Except Fault Unit
  | .NULL => pure ()
  | .indeterminate => throw Fault.wildPointer
  | .valid _ => pure ()

/-! ## The record and its storage -/

/-- The C `struct sStringList`: `max` allocated slots, `count` used slots, the block. -/
structure stringList where
  max : Nat
  count : Nat
  list : Option (List vStringPtr)
  deriving DecidableEq, Repr

/-- Modelled from the spec: `xMalloc (n, vString*)` of `routines.h` (not under `src/`):
a fresh block of `n` slots with indeterminate content; running out of memory is fatal
and is not a result. -/
def xMalloc (n : Nat) : List vStringPtr := List.replicate n vStringPtr.indeterminate

/-- Modelled from the spec: `xRealloc (p, n, vString*)` of `routines.h` (not under `src/`):
a block of `n` slots that keeps the old content up to the smaller of the two sizes. -/
def xRealloc (p : Option (List vStringPtr)) (n : Nat) : List vStringPtr :=
  ((p.getD []) ++ List.replicate (n - (p.getD []).length) vStringPtr.indeterminate).take n

/-- Read `list [i]`. -/
def readSlot (list : Option (List vStringPtr)) (i : Nat) : Except Fault vStringPtr :=
  match list with
  | none => throw Fault.nullPointer
  | some block =>
    match block[i]? with
    | none => throw Fault.outOfBounds
    | some p => pure p

/-- Write `list [i] = p`. -/
def writeSlot (list : Option (List vStringPtr)) (i : Nat) (p : vStringPtr) :
    Except Fault (Option (List vStringPtr)) :=
  match list with
  | none => throw Fault.nullPointer
  | some block =>
    if i < block.length then pure (some (block.set i p)) else throw Fault.outOfBounds

/-! ## Construction and append -/

/-- Function `stringListNew`, lines 27-34. -/
def stringListNew : stringList :=
  { max := 0, count := 0, list := none }

/-- The `enum { incrementalIncrease = 10 }` of `stringListAdd`. -/
def incrementalIncrease : Nat := 10

/-- Function `stringListAdd`, lines 36-53. -/
def stringListAdd (current : stringList) (string : vStringPtr) : Except Fault stringList := do
  let cur ←
    if current.list = none then do
      Assert (current.max == 0)
      pure { max := incrementalIncrease, count := 0,
             list := some (xMalloc incrementalIncrease) }
    else if current.count = current.max then
      pure { current with
             max := (current.max + incrementalIncrease) % UINT_RANGE,
             list := some (xRealloc current.list
                      ((current.max + incrementalIncrease) % UINT_RANGE)) }
    else pure current
  let list ← writeSlot cur.list cur.count string
  pure { cur with list := list, count := (cur.count + 1) % UINT_RANGE }

/-- Function `stringListRemoveLast`, lines 55-61. -/
def stringListRemoveLast (current : stringList) : Except Fault stringList := do
  Assert (decide (current.count > 0))
  let count := (current.count + UINT_RANGE - 1) % UINT_RANGE
  let list ← writeSlot current.list count vStringPtr.NULL
  pure { current with count := count, list := list }

/-- Function `stringListCount`, lines 109-113. -/
def stringListCount (current : stringList) : Nat := current.count

/-- Function `stringListItem`, lines 115-120. -/
def stringListItem (current : stringList) (indx : Nat) : Except Fault vStringPtr :=
  readSlot current.list indx

/-- Function `stringListLast`, lines 122-127. -/
def stringListLast (current : stringList) : Except Fault vStringPtr := do
  Assert (decide (current.count > 0))
  readSlot current.list ((current.count + UINT_RANGE - 1) % UINT_RANGE)

/-! ## Clearing and destruction -/

/-- The loop of `stringListClear`, lines 133-137. -/
def stringListClearLoop (count : Nat) :
    Nat → Nat → Option (List vStringPtr) → Except Fault (Option (List vStringPtr))
  | 0, _, _ => throw Fault.outOfFuel
  | fuel + 1, i, list =>
    if i < count then do
      let itm ← readSlot list i
      vStringDelete itm
      let list ← writeSlot list i vStringPtr.NULL
      stringListClearLoop count fuel ((i + 1) % UINT_RANGE) list
    else pure list

/-- Function `stringListClear`, lines 129-139. -/
def stringListClear (current : stringList) : Except Fault stringList := do
  let list ← stringListClearLoop current.count (current.count + 1) 0 current.list
  pure { current with list := list, count := 0 }

/-- Function `stringListDelete`, lines 141-155; `none` is the `NULL` handle. The record and
its block are released, so nothing is returned. -/
def stringListDelete (current : Option stringList) : Except Fault Unit :=
  match current with
  | none => pure ()
  | some cur =>
    if cur.list ≠ none then do
      let _ ← stringListClear cur
      pure ()
    else pure ()

/-- The loop of `stringListCombine`, lines 70-74. -/
def stringListCombineLoop :
    Nat → Nat → stringList → stringList → Except Fault (stringList × stringList)
  | 0, _, _, _ => throw Fault.outOfFuel
  | fuel + 1, i, current, from_ =>
    if i < from_.count then do
      let itm ← readSlot from_.list i
      let current ← stringListAdd current itm
      let list ← writeSlot from_.list i vStringPtr.NULL
      stringListCombineLoop fuel ((i + 1) % UINT_RANGE) current { from_ with list := list }
    else pure (current, from_)

/-- Function `stringListCombine`, lines 63-76, for two distinct records: the result is the
record `current` after the call; `from_` is destroyed by the call. -/
def stringListCombine (current from_ : stringList) : Except Fault stringList := do
  let (current, from_) ← stringListCombineLoop (from_.count + 1) 0 current from_
  stringListDelete (some from_)
  pure current

/-! ## Searching -/

/-- Modelled from the spec: `strcmp` of the C library, the exact comparison of two texts:
zero exactly for equal texts, otherwise the sign of the lexicographic order. -/
def strcmp (s t : String) : Int :=
  if s = t then 0 else if s.data < t.data then -1 else 1

/-- The text with every upper-case letter `A`-`Z` replaced by its lower-case letter
(`tolower` of the C locale on every character). -/
def lowerCase (s : String) : String := String.mk (s.data.map Char.toLower)

/-- Modelled from the spec: `strcasecmp` of the C library, the comparison that ignores
letter case: the comparison of the two texts converted to lower case. -/
def strcasecmp (s t : String) : Int :=
  strcmp (lowerCase s) (lowerCase t)

/-- Function `compareString`, lines 157-161. -/
def compareString (string : String) (itm : vStringPtr) : Except Fault Bool := do
  let value ← vStringValue itm
  pure (strcmp string value == 0)

/-- Function `compareStringInsensitive`, lines 163-167. -/
def compareStringInsensitive (string : String) (itm : vStringPtr) : Except Fault Bool := do
  let value ← vStringValue itm
  pure (strcasecmp string value == 0)

/-- The loop of `stringListIndex`, lines 179-181. -/
def stringListIndexLoop (current : stringList) (string : String)
    (test : String → vStringPtr → Except Fault Bool) :
    Nat → Nat → Int → Except Fault Int
  | 0, _, _ => throw Fault.outOfFuel
  | fuel + 1, i, result =>
    if result = -1 ∧ i < current.count then do
      let itm ← readSlot current.list i
      let t ← test string itm
      stringListIndexLoop current string test fuel ((i + 1) % UINT_RANGE)
        (if t then toInt i else result)
    else pure result

/-- Function `stringListIndex`, lines 169-183. -/
def stringListIndex (current : stringList) (string : String)
    (test : String → vStringPtr → Except Fault Bool) : Except Fault Int :=
  stringListIndexLoop current string test (current.count + 1) 0 (-1)

/-- Function `stringListHas`, lines 185-192. -/
def stringListHas (current : stringList) (string : String) : Except Fault Bool := do
  let i ← stringListIndex current string compareString
  pure (i != -1)

/-- Function `stringListFinds`, lines 194-208. -/
def stringListFinds (current : stringList) (string : String)
    (test : String → vStringPtr → Except Fault Bool) : Except Fault vStringPtr := do
  let i ← stringListIndex current string test
  if i == -1 then pure vStringPtr.NULL
  else stringListItem current (toUnsigned i)

/-- Function `stringListHasInsensitive`, lines 210-218. -/
def stringListHasInsensitive (current : stringList) (string : String) :
    Except Fault Bool := do
  let i ← stringListIndex current string compareStringInsensitive
  pure (i != -1)

/-- The loop of `stringListHasTest`, lines 227-228. -/
def stringListHasTestLoop {U : Type} (current : stringList) (test : String → U → Bool)
    (userData : U) : Nat → Nat → Bool → Except Fault Bool
  | 0, _, _ => throw Fault.outOfFuel
  | fuel + 1, i, result =>
    if !result ∧ i < current.count then do
      let itm ← readSlot current.list i
      let value ← vStringValue itm
      stringListHasTestLoop current test userData fuel ((i + 1) % UINT_RANGE)
        (test value userData)
    else pure result

/-- Function `stringListHasTest`, lines 220-230. -/
def stringListHasTest {U : Type} (current : stringList) (test : String → U → Bool)
    (userData : U) : Except Fault Bool :=
  stringListHasTestLoop current test userData (current.count + 1) 0 false

/-! ## Deleting by extension -/

/-- Pointer arithmetic `list + i` for an `int` offset: a negative offset leaves the block. -/
def slotOffset (i : Int) : Except Fault Nat :=
  if 0 ≤ i then pure i.toNat else throw Fault.outOfBounds

/-- The call `memmove (list + dst, list + src, n * sizeof (*list))` of the C library on a
block of slots: `n` slots are copied as if through a temporary buffer; both ranges have to
lie inside the allocated block. -/
def memmove (list : Option (List vStringPtr)) (dst src n : Nat) :
    Except Fault (Option (List vStringPtr)) :=
  match list with
  | none => throw Fault.nullPointer
  | some block =>
    if src + n ≤ block.length ∧ dst + n ≤ block.length then
      pure (some (block.take dst ++ (block.drop src).take n ++ block.drop (dst + n)))
    else throw Fault.outOfBounds

/-- The comparison selected by the compile-time switch `CASE_INSENSITIVE_FILENAMES`
(lines 237-241, 257-261, 267-271); `true` stands for "defined". -/
def extensionTest (CASE_INSENSITIVE_FILENAMES : Bool) :
    String → vStringPtr → Except Fault Bool :=
  if CASE_INSENSITIVE_FILENAMES then compareStringInsensitive else compareString

/-- Function `stringListDeleteItemExtension`, lines 232-252. The result is the returned
boolean together with the record after the call. -/
def stringListDeleteItemExtension (CASE_INSENSITIVE_FILENAMES : Bool)
    (current : stringList) (extension : String) : Except Fault (Bool × stringList) := do
  let where_ ← stringListIndex current extension (extensionTest CASE_INSENSITIVE_FILENAMES)
  if where_ != -1 then do
    let w ← slotOffset where_
    let itm ← readSlot current.list w
    vStringDelete itm
    let list ← memmove current.list w (w + 1) (toUnsigned ((current.count : Int) - where_))
    let list ← writeSlot list ((current.count + UINT_RANGE - 1) % UINT_RANGE) vStringPtr.NULL
    pure (true, { current with
                  list := list, count := (current.count + UINT_RANGE - 1) % UINT_RANGE })
  else pure (false, current)

/-- Function `stringListExtensionMatched`, lines 254-262. -/
def stringListExtensionMatched (CASE_INSENSITIVE_FILENAMES : Bool)
    (current : stringList) (extension : String) : Except Fault Bool :=
  if CASE_INSENSITIVE_FILENAMES then stringListHasInsensitive current extension
  else stringListHas current extension

/-- Function `stringListExtensionFinds`, lines 264-272. -/
def stringListExtensionFinds (CASE_INSENSITIVE_FILENAMES : Bool)
    (current : stringList) (extension : String) : Except Fault vStringPtr :=
  if CASE_INSENSITIVE_FILENAMES then stringListFinds current extension compareStringInsensitive
  else stringListFinds current extension compareString

/-! ## Matching file names -/

/-- Function `fileNameMatched`, lines 274-279; `fnmatch` is the glob matcher of the
C library, a parameter: `fnmatch pattern fileName flags` is 0 exactly on a match. -/
def fileNameMatched (fnmatch : String → String → Int → Int)
    (vpattern : vStringPtr) (fileName : String) : Except Fault Bool := do
  let pattern ← vStringValue vpattern
  pure (fnmatch pattern fileName 0 == 0)

/-- The loop of `stringListFileFinds`, lines 293-297; the state is `(vstr, matched)`. -/
def stringListFileFindsLoop (fnmatch : String → String → Int → Int)
    (current : stringList) (fileName : String) :
    Nat → Nat → vStringPtr → Bool → Except Fault (vStringPtr × Bool)
  | 0, _, _, _ => throw Fault.outOfFuel
  | fuel + 1, i, vstr, matched =>
    if !matched ∧ i < stringListCount current then do
      let vstr ← stringListItem current i
      let matched ← fileNameMatched fnmatch vstr fileName
      stringListFileFindsLoop fnmatch current fileName fuel ((i + 1) % UINT_RANGE) vstr matched
    else pure (vstr, matched)

/-- Function `stringListFileFinds`, lines 287-299. -/
def stringListFileFinds (fnmatch : String → String → Int → Int)
    (current : stringList) (fileName : String) : Except Fault vStringPtr := do
  let (vstr, matched) ←
    stringListFileFindsLoop fnmatch current fileName (stringListCount current + 1) 0
      vStringPtr.NULL false
  pure (if matched then vstr else vStringPtr.NULL)

/-- Function `stringListFileMatched`, lines 281-285. -/
def stringListFileMatched (fnmatch : String → String → Int → Int)
    (current : stringList) (fileName : String) : Except Fault Bool := do
  let vstr ← stringListFileFinds fnmatch current fileName
  pure (vstr != vStringPtr.NULL)

/-! ## Reversal -/

/-- The loop of `stringListReverse`, lines 315-320. -/
def stringListReverseLoop (count : Nat) :
    Nat → Nat → Nat → Option (List vStringPtr) → Except Fault (Option (List vStringPtr))
  | 0, _, _, _ => throw Fault.outOfFuel
  | fuel + 1, i, j, list =>
    if i < count / 2 then do
      let tmp ← readSlot list i
      let atJ ← readSlot list j
      let list ← writeSlot list i atJ
      let list ← writeSlot list j tmp
      stringListReverseLoop count fuel ((i + 1) % UINT_RANGE)
        ((j + UINT_RANGE - 1) % UINT_RANGE) list
    else pure list

/-- Function `stringListReverse`, lines 309-321; `j` starts at `count - 1` in unsigned
arithmetic. -/
def stringListReverse (current : stringList) : Except Fault stringList := do
  let list ← stringListReverseLoop current.count (current.count / 2 + 1) 0
    ((current.count + UINT_RANGE - 1) % UINT_RANGE) current.list
  pure { current with list := list }

/-! ## Well-formed records and the view of a record as a sequence -/

/-- The pointer points to a live string. -/
def vStringPtr.isValid : vStringPtr → Bool
  | .valid _ => true
  | _ => false

/-- The allocated block of a record, empty for `NULL`. -/
def stringList.block (l : stringList) : List vStringPtr := l.list.getD []

/-- The sequence a record stands for: the content of its first `count` slots. -/
def stringList.items (l : stringList) : List vStringPtr := l.block.take l.count

/-- The data-model invariants of a list: `count ≤ max`, `max` is an `unsigned int`,
the block has `max` slots (none when the storage is `NULL`), and every slot below
`count` holds a live string. -/
def WF (l : stringList) : Prop :=
  l.count ≤ l.max ∧ l.max < UINT_RANGE ∧ l.block.length = l.max ∧
    ∀ p ∈ l.items, p.isValid = true

instance (l : stringList) : Decidable (WF l) := by
  unfold WF; infer_instance

/-- The record obtained from `stringListNew` by appending the given pointers in order. -/
def addAll (strings : List vStringPtr) : Except Fault stringList :=
  strings.foldlM stringListAdd stringListNew

/-- The text of `p` is exactly `s`. -/
def textIs (s : String) (p : vStringPtr) : Prop :=
  ∃ v, p = vStringPtr.valid v ∧ v.buffer = s

/-- The text of `p` is `s` up to letter case. -/
def textIsIgnoringCase (s : String) (p : vStringPtr) : Prop :=
  ∃ v, p = vStringPtr.valid v ∧ lowerCase v.buffer = lowerCase s

/-- The text of `p` matches the extension `s` under the case policy of the build. -/
def extensionMatches (CASE_INSENSITIVE_FILENAMES : Bool) (s : String) (p : vStringPtr) : Prop :=
  if CASE_INSENSITIVE_FILENAMES then textIsIgnoringCase s p else textIs s p

/-- The rest of a bracket expression of a glob pattern, read for the character `c`:
whether `c` is in the set read so far (`acc`) or in the rest, and the pattern after the
closing bracket; `none` when the bracket is never closed. A `]` right after the opening
(`first`) is a member of the set, `lo-hi` is a range. The first argument bounds the
number of characters read. -/
def globBracket (c : Char) : Nat → List Char → Bool → Bool → Option (Bool × List Char)
  | 0, _, _, _ => none
  | _ + 1, [], _, _ => none
  | fuel + 1, x :: tl, first, acc =>
    if x = ']' ∧ first = false then some (acc, tl)
    else
      match tl with
      | '-' :: hi :: rest =>
        if hi ≠ ']' then
          globBracket c fuel rest false (acc || (decide (x ≤ c) && decide (c ≤ hi)))
        else globBracket c fuel tl false (acc || c == x)
      | _ => globBracket c fuel tl false (acc || c == x)

/-- Shell-style wildcard match of a pattern against a text: `*` stands for any run of
characters, `?` for one character, `[...]` for one character of a set (`[!...]` for one
outside it), a backslash makes the next character literal. -/
def globMatch : Nat → List Char → List Char → Bool
  | 0, _, _ => false
  | _ + 1, [], s => s.isEmpty
  | fuel + 1, x :: p, s =>
    if x = '*' then s.tails.any (globMatch fuel p)
    else
      match s with
      | [] => false
      | c :: s =>
        if x = '?' then globMatch fuel p s
        else if x = '[' then
          let body := if p.head? = some '!' then (true, p.tail) else (false, p)
          match globBracket c body.2.length body.2 true false with
          | some (inSet, rest) => (inSet != body.1) && globMatch fuel rest s
          | none => c == '[' && globMatch fuel p s
        else if x = Char.ofNat 92 then
          match p with
          | [] => false
          | y :: p => c == y && globMatch fuel p s
        else c == x && globMatch fuel p s

/-- Modelled from the spec: `fnmatch` of the C library with no flags, the "Glob" capability,
"shell-style wildcard match of a pattern against a candidate string" (`*`, `?`, bracket
sets); 0 on a match and `FNM_NOMATCH` (1) otherwise. It is one instance of the parameter
`fnmatch` of `stringListFileFinds`, used for the examples. -/
def fnmatch (pattern string : String) (_flags : Int) : Int :=
  if globMatch (pattern.length + 1) pattern.data string.data then 0 else 1

/-- Example data: the record that `stringListAdd` builds when the given texts (at most
10) are appended to a new list: 10 slots, the first ones holding the texts. -/
def listOf (texts : List String) : stringList :=
  { max := 10, count := texts.length,
    list := some (texts.map (fun s => vStringPtr.valid (vString.mk s)) ++
      List.replicate (10 - texts.length) vStringPtr.indeterminate) }

/-- The number of slots that `stringListDeleteItemExtension` asks `memmove` to move for
a match at index `where_`: the expression `(current->count - where)` of line 246, an
`unsigned int`. -/
def shiftLength (current : stringList) (where_ : Int) : Nat :=
  toUnsigned ((current.count : Int) - where_)

/-- The slot indices a call `memmove (list + dst, list + src, n * sizeof (*list))` touches:
the `n` slots it reads from `src` on, then the `n` slots it writes from `dst` on. -/
def memmoveSlots (dst src n : Nat) : List Nat :=
  (List.range n).map (fun i => src + i) ++ (List.range n).map (fun i => dst + i)

/-! ## Reading a list from a file -/

/-- The newline character. -/
def newline : Char := Char.ofNat 10

/-- Modelled from the spec: an open input stream (`FILE*` of the C library): the characters
not yet read and the end-of-file indicator, which a read sets when it meets the end of
the data. -/
structure FILE where
  rest : List Char
  eof : Bool
  deriving DecidableEq, Repr

/-- Modelled from the spec: `fopen (fileName, "r")` of the C library on a file system `fs`
that gives the content of the files that can be opened: `none` is `NULL`, a new stream
starts at the first character with the end-of-file indicator clear. -/
def fopen (fs : String → Option (List Char)) (fileName : String) : Option FILE :=
  (fs fileName).map (fun content => { rest := content, eof := false })

/-- Modelled from the spec: `feof` of the C library, the end-of-file indicator. -/
def feof (fp : FILE) : Bool := fp.eof

/-- Modelled from the spec: `isspace` of the C library in the C locale: space, tab,
newline, vertical tab, form feed and carriage return. -/
def isspace (c : Char) : Bool :=
  c = ' ' || c = Char.ofNat 9 || c = newline || c = Char.ofNat 11 || c = Char.ofNat 12
    || c = Char.ofNat 13

/-- One line of a stream: the characters up to and including the first newline, the
characters after it, and whether the data ended before a newline was met. -/
def takeLine : List Char → List Char × List Char × Bool
  | [] => ([], [], true)
  | c :: cs =>
    if c = newline then ([c], cs, false)
    else ((c :: (takeLine cs).1), (takeLine cs).2.1, (takeLine cs).2.2)

/-- Modelled from the spec: `readLine (str, fp)` of `read.c` (not under `src/`), the
"line-reading I/O helper": the string is cleared and receives the next line of the
stream, with its newline when it has one; the end-of-file indicator is set when the data
ends before a newline. The result is the string and the stream after the call. -/
def readLine (_str : String) (fp : FILE) : String × FILE :=
  (String.mk (takeLine fp.rest).1,
    { rest := (takeLine fp.rest).2.1, eof := fp.eof || (takeLine fp.rest).2.2 })

/-- The characters without the whitespace at their end. -/
def stripTrailing (cs : List Char) : List Char :=
  (cs.reverse.dropWhile isspace).reverse

/-- Modelled from the spec: `vStringNew` of `vstring.h` (not under `src/`), a new empty
string. -/
def vStringNew : String := String.mk []

/-- Modelled from the spec: `vStringStripTrailing` of `vstring.h` (not under `src/`): "each
line has trailing whitespace/newline trimmed". -/
def vStringStripTrailing (str : String) : String := String.mk (stripTrailing str.data)

/-- Modelled from the spec: `vStringLength` of `vstring.h` (not under `src/`), the number of
characters of the string. -/
def vStringLength (str : String) : Nat := str.data.length

/-- The loop of `stringListNewFromFile`, lines 95-104; the state is the stream and the
list built so far. -/
def stringListNewFromFileLoop : Nat → FILE → stringList → Except Fault stringList
  | 0, _, _ => throw Fault.outOfFuel
  | fuel + 1, fp, result =>
    if !feof fp then
      let str := vStringNew
      let read := readLine str fp
      let str := vStringStripTrailing read.1
      if vStringLength str > 0 then do
        let result ← stringListAdd result (vStringPtr.valid (vString.mk str))
        stringListNewFromFileLoop fuel read.2 result
      else do
        vStringDelete (vStringPtr.valid (vString.mk str))
        stringListNewFromFileLoop fuel read.2 result
    else pure result

/-- Function `stringListNewFromFile`, lines 88-107, on the file system `fs`; the result
`none` is the `NULL` returned when the file cannot be opened. -/
def stringListNewFromFile (fs : String → Option (List Char)) (fileName : String) :
    Except Fault (Option stringList) :=
  match fopen fs fileName with
  | none => pure none
  | some fp => do
    let result ← stringListNewFromFileLoop (fp.rest.length + 2) fp stringListNew
    pure (some result)

/-- The lines of a text: the runs of characters between its newlines, the run after the
last newline included. -/
def linesOf : List Char → List (List Char)
  | [] => [[]]
  | c :: cs =>
    if c = newline then [] :: linesOf cs
    else
      match linesOf cs with
      | [] => [[c]]
      | l :: ls => (c :: l) :: ls

/-- What the spec says a list read from a file holds: the lines of the file with trailing
whitespace removed, those that are then empty left out, in file order. -/
def nonBlankLines (content : List Char) : List String :=
  (((linesOf content).map stripTrailing).filter (fun l => !l.isEmpty)).map String.mk

/-- Example data: the content of the example file of the spec, `a`, newline, newline,
`b`, two spaces, newline. -/
def exampleFile : List Char := ['a', newline, newline, 'b', ' ', ' ', newline]

/-- The storage invariant that `stringListAdd` needs and keeps: `count ≤ max`, the block has
`max` slots and `max` is an `unsigned int`. -/
def Sized (l : stringList) : Prop :=
  l.count ≤ l.max ∧ l.block.length = l.max ∧ l.max < UINT_RANGE

/-! ## Basic facts about slots -/

theorem readSlot_ok {block : List vStringPtr} {i : Nat} {p : vStringPtr}
    (h : block[i]? = some p) : readSlot (some block) i = Except.ok p := by
  simp [readSlot, h, pure, Except.pure]

theorem writeSlot_ok {block : List vStringPtr} {i : Nat} (p : vStringPtr)
    (h : i < block.length) :
    writeSlot (some block) i p = Except.ok (some (block.set i p)) := by
  simp [writeSlot, h, pure, Except.pure]

theorem stringListAdd_ok (cur : stringList) (p : vStringPtr) (h : Sized cur)
    (hroom : cur.count < cur.max ∨ cur.max + 10 < UINT_RANGE) :
    ∃ l, stringListAdd cur p = Except.ok l ∧ Sized l ∧ l.count = cur.count + 1 ∧
      l.items = cur.items ++ [p] := by
  obtain ⟨mx, ct, list⟩ := cur
  obtain ⟨hcm, hlen, hmax⟩ := h
  simp only [UINT_RANGE, stringList.block] at *
  cases list with
  | none =>
    simp only [Option.getD_none, List.length_nil] at hlen
    subst hlen
    have hc0 : ct = 0 := by omega
    subst hc0
    refine ⟨⟨10, 1, some ((xMalloc 10).set 0 p)⟩, ?_, ?_, ?_, ?_⟩
    · simp [stringListAdd, Assert, incrementalIncrease, bind, Except.bind, pure,
        Except.pure, writeSlot, xMalloc, UINT_RANGE]
    · simp [Sized, stringList.block, xMalloc, UINT_RANGE]
    · rfl
    · simp [stringList.items, stringList.block, xMalloc, List.replicate]
  | some b =>
    simp only [Option.getD_some] at hlen
    subst hlen
    by_cases hfull : ct = b.length
    · subst hfull
      have hroom' : b.length + 10 < 4294967296 := by omega
      refine ⟨⟨b.length + 10, b.length + 1,
        some ((b ++ List.replicate 10 vStringPtr.indeterminate).set b.length p)⟩,
        ?_, ?_, ?_, ?_⟩
      · have hmod : (b.length + 10) % 4294967296 = b.length + 10 := Nat.mod_eq_of_lt hroom'
        have hmod1 : (b.length + 1) % 4294967296 = b.length + 1 := Nat.mod_eq_of_lt (by omega)
        have hre : xRealloc (some b) (b.length + 10)
            = b ++ List.replicate 10 vStringPtr.indeterminate := by
          simp only [xRealloc, Option.getD_some, Nat.add_sub_cancel_left]
          rw [List.take_of_length_le]
          simp
        rw [stringListAdd]
        simp [incrementalIncrease, bind, Except.bind, pure, Except.pure,
          UINT_RANGE, hmod, hmod1, hre, writeSlot]
      · simp [Sized, stringList.block, UINT_RANGE]; omega
      · rfl
      · simp [stringList.items, stringList.block, List.take_append_eq_append_take]
    · have hlt : ct < b.length := by omega
      refine ⟨⟨b.length, ct + 1, some (b.set ct p)⟩, ?_, ?_, ?_, ?_⟩
      · have hmod1 : (ct + 1) % 4294967296 = ct + 1 :=
          Nat.mod_eq_of_lt (by omega)
        rw [stringListAdd]
        simp [hfull, bind, Except.bind, pure, Except.pure, UINT_RANGE, hmod1,
          writeSlot, hlt]
      · simp [Sized, stringList.block, UINT_RANGE]; omega
      · rfl
      · simp only [stringList.items, stringList.block, Option.getD_some]
        rw [List.take_succ, List.getElem?_set_self hlt]
        rw [List.set_take, List.set_eq_of_length_le (by simp)]
        simp

theorem foldlM_stringListAdd_ok (strings : List vStringPtr) :
    ∀ cur : stringList, Sized cur → cur.count + strings.length + 10 ≤ UINT_RANGE →
      ∃ l, strings.foldlM stringListAdd cur = Except.ok l ∧ Sized l ∧
        l.count = cur.count + strings.length ∧ l.items = cur.items ++ strings := by
  induction strings with
  | nil =>
    intro cur h _
    exact ⟨cur, rfl, h, by simp, by simp⟩
  | cons p rest ih =>
    intro cur h hb
    simp only [List.length_cons] at hb
    obtain ⟨l1, h1, hs1, hc1, hi1⟩ := stringListAdd_ok cur p h (by
      have := h.1
      omega)
    obtain ⟨l2, h2, hs2, hc2, hi2⟩ := ih l1 hs1 (by omega)
    refine ⟨l2, ?_, hs2, ?_, ?_⟩
    · simp [List.foldlM, h1, h2, bind, Except.bind]
    · simp [hc2, hc1]; omega
    · simp [hi2, hi1]

theorem items_getElem? (l : stringList) (i : Nat) (h : i < l.count) :
    l.items[i]? = l.block[i]? := by
  simp [stringList.items, List.getElem?_take, h]

theorem stringListItem_eq (l : stringList) (i : Nat) (p : vStringPtr)
    (h : l.block[i]? = some p) : stringListItem l i = Except.ok p := by
  obtain ⟨mx, ct, list⟩ := l
  cases list with
  | none => simp [stringList.block] at h
  | some b =>
    simp only [stringList.block, Option.getD_some] at h
    simp [stringListItem, readSlot, h, pure, Except.pure]

/-- C1: for every sequence of `n` pointers appended one by one with `stringListAdd` to the
list returned by `stringListNew` (`n` within the range of the `unsigned int` counters,
`n + 10 ≤ 2^32`), the appends all return, `stringListCount` is `n` and `stringListItem` at
every `i < n` is the `i`-th appended pointer. -/
theorem stringListAdd_preserves_order (strings : List vStringPtr)
    (hn : strings.length + 10 ≤ UINT_RANGE) :
    ∃ l, addAll strings = Except.ok l ∧ stringListCount l = strings.length ∧
      ∀ i (hi : i < strings.length), stringListItem l i = Except.ok strings[i] := by
  obtain ⟨l, h1, _, hc, hi⟩ := foldlM_stringListAdd_ok strings stringListNew
    (by simp [Sized, stringListNew, stringList.block, UINT_RANGE])
    (by simpa [stringListNew] using hn)
  refine ⟨l, h1, by simpa [stringListCount, stringListNew] using hc, ?_⟩
  intro i hlt
  have hcount : l.count = strings.length := by simpa [stringListNew] using hc
  apply stringListItem_eq
  rw [← items_getElem? l i (by omega), hi]
  simp [stringListNew, stringList.items, stringList.block, hlt]

/-- C1 at a concrete input: twelve appends, across the growth at the eleventh. -/
theorem stringListAdd_preserves_order_witness :
    (List.replicate 12 (vStringPtr.valid (vString.mk "x"))).length + 10 ≤ UINT_RANGE ∧
    ∃ l, addAll (List.replicate 12 (vStringPtr.valid (vString.mk "x"))) = Except.ok l ∧
      stringListCount l = (List.replicate 12 (vStringPtr.valid (vString.mk "x"))).length ∧
      ∀ i (hi : i < (List.replicate 12 (vStringPtr.valid (vString.mk "x"))).length),
        stringListItem l i
          = Except.ok ((List.replicate 12 (vStringPtr.valid (vString.mk "x")))[i]) :=
  ⟨by decide, stringListAdd_preserves_order _ (by decide)⟩

theorem WF.sized {l : stringList} (h : WF l) : Sized l := ⟨h.1, h.2.2.1, h.2.1⟩

theorem stringListClearLoop_ok (count : Nat) (hcount : count < UINT_RANGE) :
    ∀ (fuel i : Nat) (b : List vStringPtr), count ≤ b.length → count - i < fuel → i ≤ count →
      (∀ k, i ≤ k → k < count → b[k]? ≠ some vStringPtr.indeterminate) →
      ∃ b', stringListClearLoop count fuel i (some b) = Except.ok (some b') ∧
        b'.length = b.length ∧
        ∀ k, b'[k]? = if i ≤ k ∧ k < count then some vStringPtr.NULL else b[k]? := by
  intro fuel
  induction fuel with
  | zero => intro i b _ h; omega
  | succ fuel ih =>
    intro i b hlen hfuel hi hdet
    unfold stringListClearLoop
    by_cases hlt : i < count
    · have hib : i < b.length := by omega
      have hmod : (i + 1) % UINT_RANGE = i + 1 := Nat.mod_eq_of_lt (by omega)
      have hread : readSlot (some b) i = Except.ok b[i] :=
        readSlot_ok (List.getElem?_eq_getElem hib)
      have hdel : vStringDelete b[i] = Except.ok () := by
        have := hdet i (Nat.le_refl i) hlt
        rw [List.getElem?_eq_getElem hib] at this
        cases hv : b[i] with
        | NULL => rfl
        | indeterminate => simp [hv] at this
        | valid v => rfl
      obtain ⟨b', h1, h2, h3⟩ := ih (i + 1) (b.set i vStringPtr.NULL) (by simpa using hlen)
        (by omega) (by omega) (by
          intro k hk1 hk2
          rw [List.getElem?_set_ne (by omega)]
          exact hdet k (by omega) hk2)
      refine ⟨b', ?_, by simpa using h2, ?_⟩
      · simp [hlt, hread, hdel, writeSlot_ok _ hib, hmod, h1, bind, Except.bind]
      · intro k
        rw [h3 k]
        by_cases hki : k = i
        · subst hki
          simp [hlt, hib]
        · rw [List.getElem?_set_ne (by omega)]
          have : (i + 1 ≤ k ∧ k < count) ↔ (i ≤ k ∧ k < count) := by omega
          simp only [this]
    · refine ⟨b, by simp [hlt, pure, Except.pure], rfl, ?_⟩
      intro k
      have : ¬ (i ≤ k ∧ k < count) := by omega
      simp [this]

theorem stringListCombineLoop_ok (fmax fcount : Nat) (hcount : fcount < UINT_RANGE) :
    ∀ (fuel i : Nat) (cur : stringList) (fb : List vStringPtr), Sized cur →
      fcount ≤ fb.length → fcount - i < fuel → i ≤ fcount →
      cur.count + (fcount - i) + 10 ≤ UINT_RANGE →
      ∃ cur' fb', stringListCombineLoop fuel i cur ⟨fmax, fcount, some fb⟩
          = Except.ok (cur', ⟨fmax, fcount, some fb'⟩) ∧
        Sized cur' ∧ cur'.count = cur.count + (fcount - i) ∧
        cur'.items = cur.items ++ (fb.take fcount).drop i ∧
        fb'.length = fb.length ∧
        ∀ k, fb'[k]? = if i ≤ k ∧ k < fcount then some vStringPtr.NULL else fb[k]? := by
  intro fuel
  induction fuel with
  | zero => intro i cur fb _ _ h; omega
  | succ fuel ih =>
    intro i cur fb hs hlen hfuel hi hb
    unfold stringListCombineLoop
    by_cases hlt : i < fcount
    · have hib : i < fb.length := by omega
      have hmod : (i + 1) % UINT_RANGE = i + 1 := Nat.mod_eq_of_lt (by omega)
      have hread : readSlot (some fb) i = Except.ok fb[i] :=
        readSlot_ok (List.getElem?_eq_getElem hib)
      obtain ⟨c1, ha, hs1, hc1, hi1⟩ := stringListAdd_ok cur fb[i] hs (by
        have := hs.1
        omega)
      obtain ⟨cur', fb', h1, h2, h3, h4, h5, h6⟩ :=
        ih (i + 1) c1 (fb.set i vStringPtr.NULL) hs1 (by simpa using hlen)
          (by omega) (by omega) (by omega)
      refine ⟨cur', fb', ?_, h2, by omega, ?_, by simpa using h5, ?_⟩
      · simp [hlt, hread, ha, writeSlot_ok _ hib, hmod, h1, bind, Except.bind]
      · rw [h4, hi1, List.set_take, List.drop_set_of_lt _ _ (by omega), List.append_assoc]
        congr 1
        have hit : i < (List.take fcount fb).length := by simp; omega
        rw [List.drop_eq_getElem_cons hit]
        simp
      · intro k
        rw [h6 k]
        by_cases hki : k = i
        · subst hki
          simp [hlt, hib]
        · rw [List.getElem?_set_ne (by omega)]
          have : (i + 1 ≤ k ∧ k < fcount) ↔ (i ≤ k ∧ k < fcount) := by omega
          simp only [this]
    · have hieq : i = fcount := by omega
      refine ⟨cur, fb, by simp [hlt, pure, Except.pure], hs, by omega, ?_, rfl, ?_⟩
      · subst hieq
        simp
      · intro k
        have : ¬ (i ≤ k ∧ k < fcount) := by omega
        simp [this]

/-- C2: for two distinct lists `A` and `B` (whose counts together stay within the range
of the `unsigned int` counters), `stringListCombine (A, B)` returns, the count of `A`
is then the sum of the two counts before the call, and the items of `A` are its former
items followed by the former items of `B`, both in their order. -/
theorem stringListCombine_appends (A B : stringList) (hA : WF A) (hB : WF B)
    (hsize : A.count + B.count + 10 ≤ UINT_RANGE) :
    ∃ A', stringListCombine A B = Except.ok A' ∧
      stringListCount A' = stringListCount A + stringListCount B ∧
      A'.items = A.items ++ B.items := by
  obtain ⟨fmax, fcount, flist⟩ := B
  have hBs := hB.sized
  simp only [Sized, stringList.block] at hBs
  obtain ⟨hcm, hlen, hmax⟩ := hBs
  simp only at hsize
  cases flist with
  | none =>
    simp only [Option.getD_none, List.length_nil] at hlen
    have hc0 : fcount = 0 := by omega
    subst hc0
    refine ⟨A, ?_, by simp [stringListCount], by simp [stringList.items]⟩
    simp [stringListCombine, stringListCombineLoop, stringListDelete, bind, Except.bind,
      pure, Except.pure]
  | some fb =>
    simp only [Option.getD_some] at hlen
    obtain ⟨A', fb', h1, _, h3, h4, h5, h6⟩ :=
      stringListCombineLoop_ok fmax fcount (by omega) (fcount + 1) 0 A fb hA.sized
        (by omega) (by omega) (by omega) (by omega)
    obtain ⟨b2, hclear, _, _⟩ := stringListClearLoop_ok fcount (by omega) (fcount + 1) 0 fb'
      (by omega) (by omega) (by omega) (by
        intro k _ hk
        rw [h6 k]
        simp [hk])
    refine ⟨A', ?_, by simpa [stringListCount] using h3, by simpa [stringList.items,
      stringList.block] using h4⟩
    simp [stringListCombine, h1, stringListDelete, stringListClear, hclear, bind,
      Except.bind, pure, Except.pure]

/-- C2 at a concrete input: `["a", "b"]` combined with `["c"]`. -/
theorem stringListCombine_appends_witness :
    WF (listOf ["a", "b"]) ∧ WF (listOf ["c"]) ∧
    (listOf ["a", "b"]).count + (listOf ["c"]).count + 10 ≤ UINT_RANGE ∧
    ∃ A', stringListCombine (listOf ["a", "b"]) (listOf ["c"]) = Except.ok A' ∧
      stringListCount A' = stringListCount (listOf ["a", "b"]) + stringListCount (listOf ["c"]) ∧
      A'.items = (listOf ["a", "b"]).items ++ (listOf ["c"]).items :=
  ⟨by decide, by decide, by decide,
    stringListCombine_appends _ _ (by decide) (by decide) (by decide)⟩

theorem readSlot_block {l : stringList} {i : Nat} {p : vStringPtr}
    (h : l.block[i]? = some p) : readSlot l.list i = Except.ok p := by
  obtain ⟨mx, ct, list⟩ := l
  cases list with
  | none => simp [stringList.block] at h
  | some b => exact readSlot_ok (by simpa [stringList.block] using h)

theorem WF.valid_at {l : stringList} (h : WF l) {k : Nat} (hk : k < l.count) :
    ∃ v, l.block[k]? = some (vStringPtr.valid v) := by
  obtain ⟨hcm, _, hlen, hval⟩ := h
  have hkb : k < l.block.length := by omega
  have hmem : l.block[k] ∈ l.items := by
    rw [stringList.items, List.mem_iff_getElem?]
    exact ⟨k, by simp [List.getElem?_take, hk, hkb]⟩
  have := hval _ hmem
  cases hv : l.block[k] with
  | NULL => simp [hv, vStringPtr.isValid] at this
  | indeterminate => simp [hv, vStringPtr.isValid] at this
  | valid v => exact ⟨v, by rw [List.getElem?_eq_getElem hkb, hv]⟩

theorem toInt_ne_neg_one {k : Nat} (h : k + 1 < UINT_RANGE) : toInt k ≠ -1 := by
  unfold toInt UINT_RANGE at *
  split <;> omega

theorem toUnsigned_toInt {k : Nat} (h : k < UINT_RANGE) : toUnsigned (toInt k) = k := by
  unfold toInt toUnsigned UINT_RANGE at *
  split <;> omega

/-- The scan of `stringListIndex` from index `i` finds nothing when no item from `i` on
passes the test. -/
theorem stringListIndexLoop_none (l : stringList) (hl : WF l) (s : String)
    (test : String → vStringPtr → Except Fault Bool) (P : vString → Bool)
    (htest : ∀ v, test s (vStringPtr.valid v) = Except.ok (P v)) :
    ∀ (fuel i : Nat), l.count - i < fuel →
      (∀ k v, i ≤ k → k < l.count → l.block[k]? = some (vStringPtr.valid v) → P v = false) →
      stringListIndexLoop l s test fuel i (-1) = Except.ok (-1) := by
  intro fuel
  induction fuel with
  | zero => intro i h; omega
  | succ fuel ih =>
    intro i hfuel hno
    unfold stringListIndexLoop
    by_cases hlt : i < l.count
    · obtain ⟨v, hv⟩ := hl.valid_at hlt
      have hmod : (i + 1) % UINT_RANGE = i + 1 :=
        Nat.mod_eq_of_lt (by have := hl.1; have := hl.2.1; omega)
      have hP := hno i v (Nat.le_refl i) hlt hv
      simp only [hlt, and_self, if_true, readSlot_block hv, bind, Except.bind, htest, hP, hmod]
      exact ih (i + 1) (by omega) (fun k u hk1 hk2 hu => hno k u (by omega) hk2 hu)
    · simp [hlt, pure, Except.pure]

/-- The scan of `stringListIndex` from index `i` returns the first index from `i` on whose
item passes the test. -/
theorem stringListIndexLoop_first (l : stringList) (hl : WF l) (s : String)
    (test : String → vStringPtr → Except Fault Bool) (P : vString → Bool)
    (htest : ∀ v, test s (vStringPtr.valid v) = Except.ok (P v))
    (k : Nat) (hk : k < l.count) (w : vString) (hw : l.block[k]? = some (vStringPtr.valid w))
    (hPw : P w = true) :
    ∀ (fuel i : Nat), l.count - i < fuel → i ≤ k →
      (∀ j v, i ≤ j → j < k → l.block[j]? = some (vStringPtr.valid v) → P v = false) →
      stringListIndexLoop l s test fuel i (-1) = Except.ok (toInt k) := by
  intro fuel
  induction fuel with
  | zero => intro i h; omega
  | succ fuel ih =>
    intro i hfuel hik hno
    have hbound : l.count < UINT_RANGE := by have := hl.1; have := hl.2.1; omega
    unfold stringListIndexLoop
    have hlt : i < l.count := by omega
    have hmod : (i + 1) % UINT_RANGE = i + 1 := Nat.mod_eq_of_lt (by omega)
    by_cases hik' : i = k
    · subst hik'
      simp only [hlt, and_self, if_true, readSlot_block hw, bind, Except.bind, htest, hPw, hmod]
      cases fuel with
      | zero => omega
      | succ fuel =>
        unfold stringListIndexLoop
        simp [toInt_ne_neg_one (k := i) (by omega), pure, Except.pure]
    · obtain ⟨v, hv⟩ := hl.valid_at hlt
      have hP := hno i v (Nat.le_refl i) (by omega) hv
      simp only [hlt, and_self, if_true, readSlot_block hv, bind, Except.bind, htest, hP, hmod]
      exact ih (i + 1) (by omega) (by omega)
        (fun j u hj1 hj2 hu => hno j u (by omega) hj2 hu)

theorem stringListIndex_none (l : stringList) (hl : WF l) (s : String)
    (test : String → vStringPtr → Except Fault Bool) (P : vString → Bool)
    (htest : ∀ v, test s (vStringPtr.valid v) = Except.ok (P v))
    (hno : ∀ k v, k < l.count → l.block[k]? = some (vStringPtr.valid v) → P v = false) :
    stringListIndex l s test = Except.ok (-1) :=
  stringListIndexLoop_none l hl s test P htest (l.count + 1) 0 (by omega)
    (fun k v _ hk hv => hno k v hk hv)

theorem stringListIndex_first (l : stringList) (hl : WF l) (s : String)
    (test : String → vStringPtr → Except Fault Bool) (P : vString → Bool)
    (htest : ∀ v, test s (vStringPtr.valid v) = Except.ok (P v))
    (k : Nat) (hk : k < l.count) (w : vString) (hw : l.block[k]? = some (vStringPtr.valid w))
    (hPw : P w = true)
    (hno : ∀ j v, j < k → l.block[j]? = some (vStringPtr.valid v) → P v = false) :
    stringListIndex l s test = Except.ok (toInt k) :=
  stringListIndexLoop_first l hl s test P htest k hk w hw hPw (l.count + 1) 0 (by omega)
    (by omega) (fun j v _ hj hv => hno j v hj hv)

/-- Among the items that pass a test there is one of smallest index. -/
theorem exists_first_match (l : stringList) (P : vString → Bool)
    (h : ∃ k v, k < l.count ∧ l.block[k]? = some (vStringPtr.valid v) ∧ P v = true) :
    ∃ k w, k < l.count ∧ l.block[k]? = some (vStringPtr.valid w) ∧ P w = true ∧
      ∀ j v, j < k → l.block[j]? = some (vStringPtr.valid v) → P v = false := by
  classical
  have h' : ∃ k, ∃ v, k < l.count ∧ l.block[k]? = some (vStringPtr.valid v) ∧ P v = true := h
  obtain ⟨w, hk, hw, hP⟩ := Nat.find_spec h'
  refine ⟨Nat.find h', w, hk, hw, hP, ?_⟩
  intro j v hj hv
  have hmin := Nat.find_min h' hj
  by_contra hne
  exact hmin ⟨v, by omega, hv, by simpa using hne⟩

theorem strcmp_eq_zero (s t : String) : (strcmp s t == 0) = decide (t = s) := by
  unfold strcmp
  by_cases h : s = t
  · simp [h]
  · have h' : ¬ t = s := fun e => h e.symm
    by_cases hlt : s.data < t.data <;> simp [h, h', hlt]

theorem compareString_valid (s : String) (v : vString) :
    compareString s (vStringPtr.valid v) = Except.ok (decide (v.buffer = s)) := by
  simp [compareString, vStringValue, bind, Except.bind, pure, Except.pure, strcmp_eq_zero]

theorem compareStringInsensitive_valid (s : String) (v : vString) :
    compareStringInsensitive s (vStringPtr.valid v)
      = Except.ok (decide (lowerCase v.buffer = lowerCase s)) := by
  simp [compareStringInsensitive, vStringValue, bind, Except.bind, pure, Except.pure,
    strcasecmp, strcmp_eq_zero]

/-- The result of `stringListIndex` differs from -1 exactly when some item passes the
test. -/
theorem stringListIndex_found_iff (l : stringList) (hl : WF l) (s : String)
    (test : String → vStringPtr → Except Fault Bool) (P : vString → Bool)
    (htest : ∀ v, test s (vStringPtr.valid v) = Except.ok (P v)) :
    ∃ r, stringListIndex l s test = Except.ok r ∧
      (r ≠ -1 ↔ ∃ k v, k < l.count ∧ l.block[k]? = some (vStringPtr.valid v) ∧ P v = true) := by
  by_cases h : ∃ k v, k < l.count ∧ l.block[k]? = some (vStringPtr.valid v) ∧ P v = true
  · obtain ⟨k, w, hk, hw, hP, hno⟩ := exists_first_match l P h
    refine ⟨toInt k, stringListIndex_first l hl s test P htest k hk w hw hP hno, ?_⟩
    have hne : toInt k ≠ -1 :=
      toInt_ne_neg_one (by have := hl.1; have := hl.2.1; omega)
    exact ⟨fun _ => h, fun _ => hne⟩
  · have hno : ∀ k v, k < l.count → l.block[k]? = some (vStringPtr.valid v) → P v = false := by
      intro k v hk hv
      by_contra hc
      exact h ⟨k, v, hk, hv, by simpa using hc⟩
    exact ⟨-1, stringListIndex_none l hl s test P htest hno,
      ⟨fun hc => absurd rfl hc, fun hc => absurd hc h⟩⟩

/-- Reading an item through `stringListItem` below the count is reading a live string of
the block. -/
theorem item_textual_iff (l : stringList) (hl : WF l) (Q : vString → Prop) :
    (∃ i, i < stringListCount l ∧ ∃ p, stringListItem l i = Except.ok p ∧
        ∃ v, p = vStringPtr.valid v ∧ Q v) ↔
      ∃ k v, k < l.count ∧ l.block[k]? = some (vStringPtr.valid v) ∧ Q v := by
  constructor
  · rintro ⟨i, hi, p, hp, v, rfl, hv⟩
    obtain ⟨u, hu⟩ := hl.valid_at (k := i) hi
    rw [stringListItem_eq l i _ hu] at hp
    cases hp
    exact ⟨i, v, hi, hu, hv⟩
  · rintro ⟨k, v, hk, hv, hQ⟩
    exact ⟨k, hk, _, stringListItem_eq l k _ hv, v, rfl, hQ⟩

/-- C8: for every list and every string `s`, `stringListHas` returns, and returns true
exactly when some item at an index below the count has text exactly `s`. -/
theorem stringListHas_iff (l : stringList) (hl : WF l) (s : String) :
    ∃ b, stringListHas l s = Except.ok b ∧
      (b = true ↔ ∃ i, i < stringListCount l ∧
        ∃ p, stringListItem l i = Except.ok p ∧ textIs s p) := by
  obtain ⟨r, hr, hiff⟩ := stringListIndex_found_iff l hl s compareString _
    (compareString_valid s)
  refine ⟨r != -1, by simp [stringListHas, hr, bind, Except.bind, pure, Except.pure], ?_⟩
  unfold textIs
  rw [item_textual_iff l hl (fun v => v.buffer = s)]
  simpa using hiff

/-- C8 at a concrete input: `["Foo", "bar"]` and `"foo"`, where the answer is false, as
it is on the empty list. -/
theorem stringListHas_iff_witness :
    WF (listOf ["Foo", "bar"]) ∧
    (∃ b, stringListHas (listOf ["Foo", "bar"]) "foo" = Except.ok b ∧
      (b = true ↔ ∃ i, i < stringListCount (listOf ["Foo", "bar"]) ∧
        ∃ p, stringListItem (listOf ["Foo", "bar"]) i = Except.ok p ∧ textIs "foo" p)) ∧
    stringListHas (listOf ["Foo", "bar"]) "foo" = Except.ok false ∧
    stringListHas (listOf ["Foo", "bar"]) "Foo" = Except.ok true ∧
    stringListHas stringListNew "foo" = Except.ok false :=
  ⟨by decide, stringListHas_iff _ (by decide) "foo", by decide, by decide, by decide⟩

/-- C9: for every list and every string `s`, `stringListHasInsensitive` returns, and
returns true exactly when some item at an index below the count has a text that equals
`s` when letter case is ignored. -/
theorem stringListHasInsensitive_iff (l : stringList) (hl : WF l) (s : String) :
    ∃ b, stringListHasInsensitive l s = Except.ok b ∧
      (b = true ↔ ∃ i, i < stringListCount l ∧
        ∃ p, stringListItem l i = Except.ok p ∧ textIsIgnoringCase s p) := by
  obtain ⟨r, hr, hiff⟩ := stringListIndex_found_iff l hl s compareStringInsensitive _
    (compareStringInsensitive_valid s)
  refine ⟨r != -1, by simp [stringListHasInsensitive, hr, bind, Except.bind, pure,
    Except.pure], ?_⟩
  unfold textIsIgnoringCase
  rw [item_textual_iff l hl (fun v => lowerCase v.buffer = lowerCase s)]
  simpa using hiff

/-- C9 at a concrete input: on `["Foo", "bar"]`, `"foo"` is found when case is ignored and
is not found by the exact search. -/
theorem stringListHasInsensitive_iff_witness :
    WF (listOf ["Foo", "bar"]) ∧
    (∃ b, stringListHasInsensitive (listOf ["Foo", "bar"]) "foo" = Except.ok b ∧
      (b = true ↔ ∃ i, i < stringListCount (listOf ["Foo", "bar"]) ∧
        ∃ p, stringListItem (listOf ["Foo", "bar"]) i = Except.ok p ∧
          textIsIgnoringCase "foo" p)) ∧
    stringListHasInsensitive (listOf ["Foo", "bar"]) "foo" = Except.ok true ∧
    stringListHas (listOf ["Foo", "bar"]) "foo" = Except.ok false :=
  ⟨by decide, stringListHasInsensitive_iff _ (by decide) "foo", by decide, by decide⟩

/-- The boolean the selected comparison computes on a live string. -/
theorem extensionTest_valid (ci : Bool) (s : String) (v : vString) :
    extensionTest ci s (vStringPtr.valid v)
      = Except.ok (if ci then decide (lowerCase v.buffer = lowerCase s)
          else decide (v.buffer = s)) := by
  cases ci
  · simp [extensionTest, compareString_valid]
  · simp [extensionTest, compareStringInsensitive_valid]

theorem extensionMatches_valid (ci : Bool) (s : String) (v : vString) :
    extensionMatches ci s (vStringPtr.valid v) ↔
      (if ci then decide (lowerCase v.buffer = lowerCase s) else decide (v.buffer = s)) = true := by
  cases ci <;> simp [extensionMatches, textIs, textIsIgnoringCase]

/-- C4: for every list and every extension that matches no stored item,
`stringListDeleteItemExtension` returns FALSE and leaves the record as it was: same
count, same capacity and the same content in every slot. -/
theorem stringListDeleteItemExtension_no_match (ci : Bool) (l : stringList) (hl : WF l)
    (extension : String)
    (hno : ∀ i, i < stringListCount l → ∀ p, stringListItem l i = Except.ok p →
      ¬ extensionMatches ci extension p) :
    stringListDeleteItemExtension ci l extension = Except.ok (false, l) := by
  have hidx := stringListIndex_none l hl extension (extensionTest ci) _
    (extensionTest_valid ci extension) (by
      intro k v hk hv
      have := hno k hk _ (stringListItem_eq l k _ hv)
      rw [extensionMatches_valid] at this
      exact Bool.eq_false_iff.mpr this)
  simp [stringListDeleteItemExtension, hidx, bind, Except.bind, pure, Except.pure]

/-- C4 at a concrete input: removing `"java"` from `["c", "cpp", "h"]`. -/
theorem stringListDeleteItemExtension_no_match_witness :
    WF (listOf ["c", "cpp", "h"]) ∧
    (∀ i, i < stringListCount (listOf ["c", "cpp", "h"]) →
      ∀ p, stringListItem (listOf ["c", "cpp", "h"]) i = Except.ok p →
        ¬ extensionMatches false "java" p) ∧
    stringListDeleteItemExtension false (listOf ["c", "cpp", "h"]) "java"
      = Except.ok (false, listOf ["c", "cpp", "h"]) :=
  have hno : ∀ i, i < stringListCount (listOf ["c", "cpp", "h"]) →
      ∀ p, stringListItem (listOf ["c", "cpp", "h"]) i = Except.ok p →
        ¬ extensionMatches false "java" p := by
    intro i hi p hp
    have hi3 : i < 3 := hi
    interval_cases i <;> cases hp <;> simp [extensionMatches, textIs]
  ⟨by decide, hno, stringListDeleteItemExtension_no_match false _ (by decide) "java" hno⟩

/-- C3, the failing input: a list filled to its capacity by ten appends. Removing the
stored extension `"cpp"` makes `memmove` read the slot of index 10 of a block of 10 slots,
under either case policy, so the call has no result; with an eleventh slot in the block
(three items in ten slots) the same removal gives `["c", "h"]`. -/
theorem stringListDeleteItemExtension_full_list_faults :
    addAll (["c", "cpp", "h", "hpp", "cc", "cxx", "hh", "hxx", "inl", "ipp"].map
        (fun s => vStringPtr.valid (vString.mk s)))
      = Except.ok (listOf ["c", "cpp", "h", "hpp", "cc", "cxx", "hh", "hxx", "inl", "ipp"]) ∧
    WF (listOf ["c", "cpp", "h", "hpp", "cc", "cxx", "hh", "hxx", "inl", "ipp"]) ∧
    stringListDeleteItemExtension false
        (listOf ["c", "cpp", "h", "hpp", "cc", "cxx", "hh", "hxx", "inl", "ipp"]) "cpp"
      = Except.error Fault.outOfBounds ∧
    stringListDeleteItemExtension true
        (listOf ["c", "cpp", "h", "hpp", "cc", "cxx", "hh", "hxx", "inl", "ipp"]) "cpp"
      = Except.error Fault.outOfBounds ∧
    (stringListDeleteItemExtension false (listOf ["c", "cpp", "h"]) "cpp").map
        (fun r => (r.1, r.2.items))
      = Except.ok (true, (listOf ["c", "h"]).items) := by
  decide

theorem toInt_of_lt {k : Nat} (h : k < 2147483648) : toInt k = (k : Int) := by
  simp [toInt, h]

theorem pred_mod_uint {n : Nat} (h0 : 0 < n) (h : n < UINT_RANGE) :
    (n + UINT_RANGE - 1) % UINT_RANGE = n - 1 := by
  unfold UINT_RANGE at *
  omega

/-- What `stringListDeleteItemExtension` does up to its `memmove`, for a first match at
index `k`: the call is the `memmove` of `count - k` slots from `k + 1` to `k`, followed by
the write of `NULL` at `count - 1`. -/
theorem stringListDeleteItemExtension_match (ci : Bool) (l : stringList) (hl : WF l)
    (extension : String) (k : Nat) (hk : k < l.count) (hint : k < 2147483648)
    (p : vStringPtr) (hp : l.block[k]? = some p) (hmatch : extensionMatches ci extension p)
    (hfirst : ∀ j q, j < k → l.block[j]? = some q → ¬ extensionMatches ci extension q) :
    stringListDeleteItemExtension ci l extension =
      (do
        let list ← memmove l.list k (k + 1) (l.count - k)
        let list ← writeSlot list (l.count - 1) vStringPtr.NULL
        pure (true, { l with list := list, count := l.count - 1 })) := by
  have hbound : l.count < UINT_RANGE := by have := hl.1; have := hl.2.1; omega
  obtain ⟨w, hw⟩ := hl.valid_at hk
  have hpw : p = vStringPtr.valid w := by rw [hp] at hw; exact Option.some.inj hw
  subst hpw
  have hidx := stringListIndex_first l hl extension (extensionTest ci) _
    (extensionTest_valid ci extension) k hk w hw
    ((extensionMatches_valid ci extension w).mp hmatch) (by
      intro j v hj hv
      have := hfirst j _ hj hv
      rw [extensionMatches_valid] at this
      exact Bool.eq_false_iff.mpr this)
  have hne : toInt k ≠ -1 := toInt_ne_neg_one (by omega)
  have hne' : ((k : Int) != -1) = true := by
    rw [← toInt_of_lt hint]; simpa using hne
  have hsub : toUnsigned ((l.count : Int) - (k : Int)) = l.count - k := by
    unfold toUnsigned UINT_RANGE at *
    omega
  simp only [stringListDeleteItemExtension, hidx, bind, Except.bind, toInt_of_lt hint, hne',
    if_true, slotOffset, Int.toNat_ofNat, readSlot_block hw, vStringDelete, hsub,
    pred_mod_uint (Nat.lt_of_le_of_lt (Nat.zero_le k) hk) hbound, pure, Except.pure,
    Int.ofNat_nonneg, Nat.cast_nonneg]

/-- With a free slot behind the items (`count < max`), `stringListDeleteItemExtension`
removes the first matching item and keeps the others in their order. -/
theorem stringListDeleteItemExtension_removes (ci : Bool) (l : stringList) (hl : WF l)
    (extension : String) (k : Nat) (hk : k < l.count) (hint : k < 2147483648)
    (p : vStringPtr) (hp : l.block[k]? = some p) (hmatch : extensionMatches ci extension p)
    (hfirst : ∀ j q, j < k → l.block[j]? = some q → ¬ extensionMatches ci extension q)
    (hroom : l.count < l.max) :
    ∃ l', stringListDeleteItemExtension ci l extension = Except.ok (true, l') ∧
      l'.count = l.count - 1 ∧ l'.max = l.max ∧ l'.items = l.items.eraseIdx k := by
  rw [stringListDeleteItemExtension_match ci l hl extension k hk hint p hp hmatch hfirst]
  obtain ⟨mx, ct, list⟩ := l
  obtain ⟨hcm, hmax, hlen, _⟩ := hl
  simp only [stringList.block] at *
  cases list with
  | none => simp at hp
  | some b =>
    simp only [Option.getD_some] at hlen hp
    subst hlen
    refine ⟨⟨b.length, ct - 1, some ((b.take k ++ (b.drop (k + 1)).take (ct - k)
      ++ b.drop (k + (ct - k))).set (ct - 1) vStringPtr.NULL)⟩, ?_, rfl, rfl, ?_⟩
    · have h1 : k + 1 + (ct - k) ≤ b.length ∧ k + (ct - k) ≤ b.length := by omega
      have h2 : ct - 1 < (b.take k ++ (b.drop (k + 1)).take (ct - k)
          ++ b.drop (k + (ct - k))).length := by
        simp only [List.length_append, List.length_take, List.length_drop]
        omega
      simp only [memmove, h1, and_self, if_true, bind, Except.bind, pure, Except.pure,
        writeSlot, h2]
    · simp only [stringList.items, stringList.block, Option.getD_some]
      rw [List.eraseIdx_eq_take_drop_succ]
      apply List.ext_getElem?
      intro i
      simp only [List.getElem?_take, List.getElem?_set, List.getElem?_append,
        List.getElem?_drop, List.length_take, List.length_append, List.length_drop]
      split_ifs <;> first | rfl | omega | (congr 1; omega)

/-- On a list filled to its capacity (`count = max`), `stringListDeleteItemExtension` with
a matching extension has no result: its `memmove` reads the slot of index `count`, one past
the last slot of the block. -/
theorem stringListDeleteItemExtension_full (ci : Bool) (l : stringList) (hl : WF l)
    (extension : String) (k : Nat) (hk : k < l.count) (hint : k < 2147483648)
    (p : vStringPtr) (hp : l.block[k]? = some p) (hmatch : extensionMatches ci extension p)
    (hfirst : ∀ j q, j < k → l.block[j]? = some q → ¬ extensionMatches ci extension q)
    (hfull : l.count = l.max) :
    stringListDeleteItemExtension ci l extension = Except.error Fault.outOfBounds := by
  rw [stringListDeleteItemExtension_match ci l hl extension k hk hint p hp hmatch hfirst]
  obtain ⟨mx, ct, list⟩ := l
  obtain ⟨hcm, hmax, hlen, _⟩ := hl
  simp only [stringList.block] at *
  cases list with
  | none => simp at hp
  | some b =>
    simp only [Option.getD_some] at hlen hp
    subst hlen
    have h1 : ¬ (k + 1 + (ct - k) ≤ b.length ∧ k + (ct - k) ≤ b.length) := by omega
    simp only [memmove, h1, if_false, bind, Except.bind, throw, throwThe, MonadExceptOf.throw]

/-- The loop of `stringListReverse` started at `i` (with `j` at the mirrored index)
reverses the part of the block between the indices `i` and `count - i`. -/
theorem stringListReverseLoop_ok (n : Nat) (hn : n < UINT_RANGE) :
    ∀ (fuel i j : Nat) (b : List vStringPtr), n ≤ b.length → n / 2 - i < fuel → i ≤ n / 2 →
      (i < n / 2 → j = n - 1 - i) →
      ∃ b', stringListReverseLoop n fuel i j (some b) = Except.ok (some b') ∧
        b'.length = b.length ∧
        ∀ k, b'[k]? = if i ≤ k ∧ k < n - i then b[n - 1 - k]? else b[k]? := by
  intro fuel
  induction fuel with
  | zero => intro i j b _ h; omega
  | succ fuel ih =>
    intro i j b hlen hfuel hi hj
    unfold stringListReverseLoop
    by_cases hlt : i < n / 2
    · have hj' := hj hlt
      subst hj'
      have hib : i < b.length := by omega
      have hjb : n - 1 - i < b.length := by omega
      have hmodi : (i + 1) % UINT_RANGE = i + 1 := Nat.mod_eq_of_lt (by omega)
      have hmodj : (n - 1 - i + UINT_RANGE - 1) % UINT_RANGE = n - 1 - (i + 1) := by
        unfold UINT_RANGE at *
        omega
      have hri : readSlot (some b) i = Except.ok b[i] :=
        readSlot_ok (List.getElem?_eq_getElem hib)
      have hrj : readSlot (some b) (n - 1 - i) = Except.ok b[n - 1 - i] :=
        readSlot_ok (List.getElem?_eq_getElem hjb)
      have hw1 := @writeSlot_ok b i b[n - 1 - i] hib
      have hw2 := @writeSlot_ok (b.set i b[n - 1 - i]) (n - 1 - i) b[i] (by simpa using hjb)
      obtain ⟨b', h1, h2, h3⟩ := ih (i + 1) (n - 1 - (i + 1))
        ((b.set i b[n - 1 - i]).set (n - 1 - i) b[i]) (by simpa using hlen) (by omega)
        (by omega) (fun _ => rfl)
      refine ⟨b', ?_, by simpa using h2, ?_⟩
      · simp only [hlt, if_true, hri, hrj, hw1, hw2, hmodi, hmodj, h1, bind, Except.bind]
      · intro k
        rw [h3 k]
        simp only [List.getElem?_set, List.length_set]
        split_ifs
        all_goals (try omega)
        all_goals (try rfl)
        · have hk : n - 1 - k = i := by omega
          rw [hk, List.getElem?_eq_getElem hib]
        · have hk : n - 1 - k = n - 1 - i := by omega
          rw [hk, List.getElem?_eq_getElem hjb]
    · refine ⟨b, by simp [hlt, pure, Except.pure], rfl, ?_⟩
      intro k
      split_ifs with hk
      · congr 1; omega
      · rfl

/-- What `stringListReverse` returns on a record with storage: the same record with the
first `count` slots in reverse order and the other slots untouched. -/
theorem stringListReverse_some (mx ct : Nat) (b : List vStringPtr) (hlen : ct ≤ b.length)
    (hct : ct < UINT_RANGE) :
    ∃ b', stringListReverse ⟨mx, ct, some b⟩ = Except.ok ⟨mx, ct, some b'⟩ ∧
      b'.length = b.length ∧
      ∀ k, b'[k]? = if k < ct then b[ct - 1 - k]? else b[k]? := by
  obtain ⟨b', h1, h2, h3⟩ := stringListReverseLoop_ok ct hct (ct / 2 + 1) 0
    ((ct + UINT_RANGE - 1) % UINT_RANGE) b hlen (by omega) (by omega) (by
      intro h
      rw [pred_mod_uint (by omega) hct]
      omega)
  refine ⟨b', by simp [stringListReverse, h1, bind, Except.bind, pure, Except.pure], h2, ?_⟩
  intro k
  simpa using h3 k

/-- On a record without storage `stringListReverse` does nothing. -/
theorem stringListReverse_none (mx ct : Nat) (hct : ct = 0) :
    stringListReverse ⟨mx, ct, none⟩ = Except.ok ⟨mx, ct, none⟩ := by
  subst hct
  simp [stringListReverse, stringListReverseLoop, bind, Except.bind, pure, Except.pure]

/-- C5: for every list of `n` items, `stringListReverse` returns, the count is still `n`
and the item at every index `i < n` is the former item at index `n - 1 - i`; a list of
0 or 1 items is left unchanged. -/
theorem stringListReverse_mirrors (l : stringList) (hl : WF l) :
    ∃ l', stringListReverse l = Except.ok l' ∧
      stringListCount l' = stringListCount l ∧
      (∀ i, i < stringListCount l →
        ∃ p, stringListItem l' i = Except.ok p ∧
          stringListItem l (stringListCount l - 1 - i) = Except.ok p) ∧
      (stringListCount l ≤ 1 → l' = l) := by
  obtain ⟨mx, ct, list⟩ := l
  obtain ⟨hcm, hmax, hlen, _⟩ := hl
  simp only [stringList.block, stringListCount] at *
  cases list with
  | none =>
    simp only [Option.getD_none, List.length_nil] at hlen
    have hc0 : ct = 0 := by omega
    refine ⟨_, stringListReverse_none mx ct hc0, rfl, ?_, fun _ => rfl⟩
    intro i hi
    omega
  | some b =>
    simp only [Option.getD_some] at hlen
    obtain ⟨b', h1, h2, h3⟩ := stringListReverse_some mx ct b (by omega) (by omega)
    refine ⟨_, h1, rfl, ?_, ?_⟩
    · intro i hi
      have hib : ct - 1 - i < b.length := by omega
      refine ⟨b[ct - 1 - i], ?_, ?_⟩
      · apply stringListItem_eq
        simp only [stringList.block, Option.getD_some]
        rw [h3 i, if_pos hi, List.getElem?_eq_getElem hib]
      · apply stringListItem_eq
        simp only [stringList.block, Option.getD_some]
        rw [List.getElem?_eq_getElem hib]
    · intro hle
      have : b' = b := by
        apply List.ext_getElem?
        intro k
        rw [h3 k]
        split_ifs with hk
        · congr 1; omega
        · rfl
      rw [this]

/-- C5 at a concrete input: `["a", "b", "c"]` becomes `["c", "b", "a"]`. -/
theorem stringListReverse_mirrors_witness :
    WF (listOf ["a", "b", "c"]) ∧
    (∃ l', stringListReverse (listOf ["a", "b", "c"]) = Except.ok l' ∧
      stringListCount l' = stringListCount (listOf ["a", "b", "c"]) ∧
      (∀ i, i < stringListCount (listOf ["a", "b", "c"]) →
        ∃ p, stringListItem l' i = Except.ok p ∧
          stringListItem (listOf ["a", "b", "c"])
            (stringListCount (listOf ["a", "b", "c"]) - 1 - i) = Except.ok p) ∧
      (stringListCount (listOf ["a", "b", "c"]) ≤ 1 → l' = listOf ["a", "b", "c"])) ∧
    stringListReverse (listOf ["a", "b", "c"]) = Except.ok (listOf ["c", "b", "a"]) ∧
    stringListReverse stringListNew = Except.ok stringListNew ∧
    stringListReverse (listOf ["a"]) = Except.ok (listOf ["a"]) :=
  ⟨by decide, stringListReverse_mirrors _ (by decide), by decide, by decide, by decide⟩

/-- C6: `stringListReverse` is an involution: applied twice it returns both times and
gives back the record it started from, with the same count, the same capacity and
the same content in every slot. -/
theorem stringListReverse_involution (l : stringList) (hl : WF l) :
    (stringListReverse l >>= stringListReverse) = Except.ok l := by
  obtain ⟨mx, ct, list⟩ := l
  obtain ⟨hcm, hmax, hlen, _⟩ := hl
  simp only [stringList.block] at *
  cases list with
  | none =>
    simp only [Option.getD_none, List.length_nil] at hlen
    have hc0 : ct = 0 := by omega
    simp [stringListReverse_none mx ct hc0, bind, Except.bind]
  | some b =>
    simp only [Option.getD_some] at hlen
    obtain ⟨b', h1, h2, h3⟩ := stringListReverse_some mx ct b (by omega) (by omega)
    obtain ⟨b'', h4, _, h6⟩ := stringListReverse_some mx ct b' (by omega) (by omega)
    have : b'' = b := by
      apply List.ext_getElem?
      intro k
      rw [h6 k]
      split_ifs with hk
      · rw [h3 (ct - 1 - k), if_pos (by omega)]
        congr 1; omega
      · rw [h3 k, if_neg hk]
    simp [h1, h4, this, bind, Except.bind]

/-- C6 at a concrete input: five items, reversed twice. -/
theorem stringListReverse_involution_witness :
    WF (listOf ["a", "b", "c", "d", "e"]) ∧
    (stringListReverse (listOf ["a", "b", "c", "d", "e"]) >>= stringListReverse)
      = Except.ok (listOf ["a", "b", "c", "d", "e"]) :=
  ⟨by decide, stringListReverse_involution _ (by decide)⟩

/-- C7: for every list with at least one item, `stringListRemoveLast` returns, the count
is one less, the vacated slot holds `NULL` and every item below the new count is
unchanged; when the list had at least two items, `stringListLast` then returns the
item that was second to last. -/
theorem stringListRemoveLast_drops_last (l : stringList) (hl : WF l)
    (hpos : 1 ≤ stringListCount l) :
    ∃ l', stringListRemoveLast l = Except.ok l' ∧
      stringListCount l' = stringListCount l - 1 ∧
      stringListItem l' (stringListCount l - 1) = Except.ok vStringPtr.NULL ∧
      (∀ i, i < stringListCount l' →
        ∃ p, stringListItem l' i = Except.ok p ∧ stringListItem l i = Except.ok p) ∧
      (2 ≤ stringListCount l →
        ∃ p, stringListLast l' = Except.ok p ∧
          stringListItem l (stringListCount l - 2) = Except.ok p) := by
  obtain ⟨mx, ct, list⟩ := l
  obtain ⟨hcm, hmax, hlen, _⟩ := hl
  simp only [stringList.block, stringListCount] at *
  cases list with
  | none =>
    simp only [Option.getD_none, List.length_nil] at hlen
    omega
  | some b =>
    simp only [Option.getD_some] at hlen
    subst hlen
    have hpred : (ct + UINT_RANGE - 1) % UINT_RANGE = ct - 1 := pred_mod_uint (by omega) (by omega)
    have hlt : ct - 1 < b.length := by omega
    refine ⟨⟨b.length, ct - 1, some (b.set (ct - 1) vStringPtr.NULL)⟩, ?_, rfl, ?_, ?_, ?_⟩
    · have hpos' : 0 < ct := by omega
      simp [stringListRemoveLast, Assert, hpos', hpred, writeSlot_ok _ hlt, bind, Except.bind,
        pure, Except.pure]
    · apply stringListItem_eq
      simp [stringList.block, hlt]
    · intro i hi
      have hi' : i < ct - 1 := hi
      have hib : i < b.length := by omega
      refine ⟨b[i], ?_, ?_⟩
      · apply stringListItem_eq
        simp only [stringList.block, Option.getD_some]
        rw [List.getElem?_set_ne (by omega), List.getElem?_eq_getElem hib]
      · apply stringListItem_eq
        simp only [stringList.block, Option.getD_some]
        rw [List.getElem?_eq_getElem hib]
    · intro h2
      have hib : ct - 2 < b.length := by omega
      have hpred2 : (ct - 1 + UINT_RANGE - 1) % UINT_RANGE = ct - 2 := by
        rw [pred_mod_uint (by omega) (by omega)]
        omega
      have hpos2 : 0 < ct - 1 := by omega
      refine ⟨b[ct - 2], ?_, ?_⟩
      · have hread : readSlot (some (b.set (ct - 1) vStringPtr.NULL)) (ct - 2)
            = Except.ok b[ct - 2] := by
          apply readSlot_ok
          rw [List.getElem?_set_ne (by omega), List.getElem?_eq_getElem hib]
        simp [stringListLast, Assert, hpos2, hpred2, hread, bind, Except.bind, pure,
          Except.pure]
      · apply stringListItem_eq
        simp only [stringList.block, Option.getD_some]
        rw [List.getElem?_eq_getElem hib]

/-- C7 at a concrete input: the last of `["a", "b", "c"]` is removed. -/
theorem stringListRemoveLast_drops_last_witness :
    WF (listOf ["a", "b", "c"]) ∧ 1 ≤ stringListCount (listOf ["a", "b", "c"]) ∧
    ∃ l', stringListRemoveLast (listOf ["a", "b", "c"]) = Except.ok l' ∧
      stringListCount l' = stringListCount (listOf ["a", "b", "c"]) - 1 ∧
      stringListItem l' (stringListCount (listOf ["a", "b", "c"]) - 1)
        = Except.ok vStringPtr.NULL ∧
      (∀ i, i < stringListCount l' →
        ∃ p, stringListItem l' i = Except.ok p ∧
          stringListItem (listOf ["a", "b", "c"]) i = Except.ok p) ∧
      (2 ≤ stringListCount (listOf ["a", "b", "c"]) →
        ∃ p, stringListLast l' = Except.ok p ∧
          stringListItem (listOf ["a", "b", "c"])
            (stringListCount (listOf ["a", "b", "c"]) - 2) = Except.ok p) :=
  ⟨by decide, by decide, stringListRemoveLast_drops_last _ (by decide) (by decide)⟩

theorem fileNameMatched_valid (fnmatch : String → String → Int → Int) (v : vString)
    (fileName : String) :
    fileNameMatched fnmatch (vStringPtr.valid v) fileName
      = Except.ok (fnmatch v.buffer fileName 0 == 0) := by
  simp [fileNameMatched, vStringValue, bind, Except.bind, pure, Except.pure]

/-- The scan of `stringListFileFinds` from index `i` ends unmatched when no pattern from
`i` on matches. -/
theorem stringListFileFindsLoop_none (fnmatch : String → String → Int → Int)
    (l : stringList) (hl : WF l) (fileName : String) :
    ∀ (fuel i : Nat) (vstr : vStringPtr), l.count - i < fuel →
      (∀ k v, i ≤ k → k < l.count → l.block[k]? = some (vStringPtr.valid v) →
        fnmatch v.buffer fileName 0 ≠ 0) →
      ∃ last, stringListFileFindsLoop fnmatch l fileName fuel i vstr false
        = Except.ok (last, false) := by
  intro fuel
  induction fuel with
  | zero => intro i _ h; omega
  | succ fuel ih =>
    intro i vstr hfuel hno
    unfold stringListFileFindsLoop
    by_cases hlt : i < l.count
    · obtain ⟨v, hv⟩ := hl.valid_at hlt
      have hmod : (i + 1) % UINT_RANGE = i + 1 :=
        Nat.mod_eq_of_lt (by have := hl.1; have := hl.2.1; omega)
      have hP : (fnmatch v.buffer fileName 0 == 0) = false := by
        simpa using hno i v (Nat.le_refl i) hlt hv
      simp only [stringListCount, hlt, Bool.not_false, and_self, if_true, stringListItem,
        readSlot_block hv, bind, Except.bind, fileNameMatched_valid, hP, hmod]
      exact ih (i + 1) _ (by omega) (fun k u hk1 hk2 hu => hno k u (by omega) hk2 hu)
    · exact ⟨vstr, by simp [stringListCount, hlt, pure, Except.pure]⟩

/-- The scan of `stringListFileFinds` from index `i` ends on the first pattern from `i` on
that matches. -/
theorem stringListFileFindsLoop_first (fnmatch : String → String → Int → Int)
    (l : stringList) (hl : WF l) (fileName : String)
    (k : Nat) (hk : k < l.count) (w : vString) (hw : l.block[k]? = some (vStringPtr.valid w))
    (hPw : fnmatch w.buffer fileName 0 = 0) :
    ∀ (fuel i : Nat) (vstr : vStringPtr), l.count - i < fuel → i ≤ k →
      (∀ j v, i ≤ j → j < k → l.block[j]? = some (vStringPtr.valid v) →
        fnmatch v.buffer fileName 0 ≠ 0) →
      stringListFileFindsLoop fnmatch l fileName fuel i vstr false
        = Except.ok (vStringPtr.valid w, true) := by
  intro fuel
  induction fuel with
  | zero => intro i _ h; omega
  | succ fuel ih =>
    intro i vstr hfuel hik hno
    have hbound : l.count < UINT_RANGE := by have := hl.1; have := hl.2.1; omega
    unfold stringListFileFindsLoop
    have hlt : i < l.count := by omega
    have hmod : (i + 1) % UINT_RANGE = i + 1 := Nat.mod_eq_of_lt (by omega)
    by_cases hik' : i = k
    · subst hik'
      have hP : (fnmatch w.buffer fileName 0 == 0) = true := by simpa using hPw
      simp only [stringListCount, hlt, Bool.not_false, and_self, if_true, stringListItem,
        readSlot_block hw, bind, Except.bind, fileNameMatched_valid, hP, hmod]
      cases fuel with
      | zero => omega
      | succ fuel =>
        unfold stringListFileFindsLoop
        simp [pure, Except.pure]
    · obtain ⟨v, hv⟩ := hl.valid_at hlt
      have hP : (fnmatch v.buffer fileName 0 == 0) = false := by
        simpa using hno i v (Nat.le_refl i) (by omega) hv
      simp only [stringListCount, hlt, Bool.not_false, and_self, if_true, stringListItem,
        readSlot_block hv, bind, Except.bind, fileNameMatched_valid, hP, hmod]
      exact ih (i + 1) _ (by omega) (by omega)
        (fun j u hj1 hj2 hu => hno j u (by omega) hj2 hu)

/-- C10: for every list of patterns, every glob matcher and every file name,
`stringListFileFinds` returns the stored item of smallest index whose pattern matches the
file name, and `NULL` when no pattern matches (so on the empty list);
`stringListFileMatched` returns true exactly when `stringListFileFinds` returns an item. -/
theorem stringListFileFinds_first_match (fnmatch : String → String → Int → Int)
    (l : stringList) (hl : WF l) (fileName : String) :
    ∃ r b, stringListFileFinds fnmatch l fileName = Except.ok r ∧
      stringListFileMatched fnmatch l fileName = Except.ok b ∧
      (b = true ↔ r ≠ vStringPtr.NULL) ∧
      (∀ k v, k < stringListCount l → stringListItem l k = Except.ok (vStringPtr.valid v) →
        fnmatch v.buffer fileName 0 = 0 →
        (∀ j u, j < k → stringListItem l j = Except.ok (vStringPtr.valid u) →
          fnmatch u.buffer fileName 0 ≠ 0) →
        r = vStringPtr.valid v) ∧
      ((∀ j u, j < stringListCount l → stringListItem l j = Except.ok (vStringPtr.valid u) →
          fnmatch u.buffer fileName 0 ≠ 0) →
        r = vStringPtr.NULL) := by
  have hitem : ∀ j u, j < l.count →
      (stringListItem l j = Except.ok (vStringPtr.valid u) ↔
        l.block[j]? = some (vStringPtr.valid u)) := by
    intro j u hj
    obtain ⟨x, hx⟩ := hl.valid_at hj
    rw [stringListItem_eq l j _ hx, hx]
    constructor
    · intro h; cases h; rfl
    · intro h; cases h; rfl
  by_cases h : ∃ k v, k < l.count ∧ l.block[k]? = some (vStringPtr.valid v) ∧
      (fnmatch v.buffer fileName 0 == 0) = true
  · obtain ⟨k, w, hk, hw, hP, hno⟩ :=
      exists_first_match l (fun v => fnmatch v.buffer fileName 0 == 0) h
    have hloop := stringListFileFindsLoop_first fnmatch l hl fileName k hk w hw
      (by simpa using hP) (l.count + 1) 0 vStringPtr.NULL (by omega) (by omega)
      (fun j v _ hj hv => by simpa using hno j v hj hv)
    have hfind : stringListFileFinds fnmatch l fileName = Except.ok (vStringPtr.valid w) := by
      simp [stringListFileFinds, stringListCount, hloop, bind, Except.bind, pure, Except.pure]
    refine ⟨vStringPtr.valid w, true, hfind, ?_, by simp, ?_, ?_⟩
    · simp [stringListFileMatched, hfind, bind, Except.bind, pure, Except.pure]
    · intro k' v hk' hv hmatch hfirst
      rw [hitem k' v hk'] at hv
      have hkk : k' = k := by
        rcases Nat.lt_trichotomy k' k with hlt | heq | hgt
        · have := hno k' v hlt hv
          simp [hmatch] at this
        · exact heq
        · exact absurd (by simpa using hP) (hfirst k w hgt ((hitem k w hk).mpr hw))
      subst hkk
      rw [hw] at hv
      exact Option.some.inj hv
    · intro hnone
      exact absurd (by simpa using hP) (hnone k w hk ((hitem k w hk).mpr hw))
  · have hno : ∀ k v, 0 ≤ k → k < l.count → l.block[k]? = some (vStringPtr.valid v) →
        fnmatch v.buffer fileName 0 ≠ 0 := by
      intro k v _ hk hv hc
      exact h ⟨k, v, hk, hv, by simpa using hc⟩
    obtain ⟨last, hloop⟩ := stringListFileFindsLoop_none fnmatch l hl fileName (l.count + 1) 0
      vStringPtr.NULL (by omega) hno
    have hfind : stringListFileFinds fnmatch l fileName = Except.ok vStringPtr.NULL := by
      simp [stringListFileFinds, stringListCount, hloop, bind, Except.bind, pure, Except.pure]
    refine ⟨vStringPtr.NULL, false, hfind, ?_, by simp, ?_, fun _ => rfl⟩
    · simp [stringListFileMatched, hfind, bind, Except.bind, pure, Except.pure]
    · intro k v hk hv hmatch _
      rw [hitem k v hk] at hv
      exact absurd hmatch (hno k v (Nat.zero_le k) hk hv)

/-- C10 at a concrete input, with the glob matcher `fnmatch`: in `["*.c", "*.h"]` the
file name `"main.c"` finds the item `"*.c"` and `"main.py"` is not matched. -/
theorem stringListFileFinds_first_match_witness :
    WF (listOf ["*.c", "*.h"]) ∧
    (∃ r b, stringListFileFinds fnmatch (listOf ["*.c", "*.h"]) "main.c" = Except.ok r ∧
      stringListFileMatched fnmatch (listOf ["*.c", "*.h"]) "main.c" = Except.ok b ∧
      (b = true ↔ r ≠ vStringPtr.NULL) ∧
      (∀ k v, k < stringListCount (listOf ["*.c", "*.h"]) →
        stringListItem (listOf ["*.c", "*.h"]) k = Except.ok (vStringPtr.valid v) →
        fnmatch v.buffer "main.c" 0 = 0 →
        (∀ j u, j < k →
          stringListItem (listOf ["*.c", "*.h"]) j = Except.ok (vStringPtr.valid u) →
          fnmatch u.buffer "main.c" 0 ≠ 0) →
        r = vStringPtr.valid v) ∧
      ((∀ j u, j < stringListCount (listOf ["*.c", "*.h"]) →
          stringListItem (listOf ["*.c", "*.h"]) j = Except.ok (vStringPtr.valid u) →
          fnmatch u.buffer "main.c" 0 ≠ 0) →
        r = vStringPtr.NULL)) ∧
    stringListFileFinds fnmatch (listOf ["*.c", "*.h"]) "main.c"
      = Except.ok (vStringPtr.valid (vString.mk "*.c")) ∧
    stringListFileMatched fnmatch (listOf ["*.c", "*.h"]) "main.py" = Except.ok false ∧
    stringListFileFinds fnmatch stringListNew "main.c" = Except.ok vStringPtr.NULL :=
  ⟨by decide, stringListFileFinds_first_match fnmatch _ (by decide) "main.c",
    by decide, by decide, by decide⟩

theorem stringListExtensionFinds_eq (ci : Bool) (l : stringList) (s : String) :
    stringListExtensionFinds ci l s = stringListFinds l s (extensionTest ci) := by
  cases ci <;> rfl

theorem stringListExtensionMatched_eq (ci : Bool) (l : stringList) (s : String) :
    stringListExtensionMatched ci l s
      = (stringListIndex l s (extensionTest ci)).map (fun i => i != -1) := by
  cases ci <;> rfl

/-- C11: for every list and every extension, `stringListExtensionFinds` returns the
list's stored item of smallest index that matches the extension under the case policy of
the build, and `NULL` when no item matches; it returns an item exactly when
`stringListExtensionMatched` is true for the same arguments. -/
theorem stringListExtensionFinds_first_match (ci : Bool) (l : stringList) (hl : WF l)
    (extension : String) :
    ∃ r b, stringListExtensionFinds ci l extension = Except.ok r ∧
      stringListExtensionMatched ci l extension = Except.ok b ∧
      (b = true ↔ r ≠ vStringPtr.NULL) ∧
      (∀ k p, k < stringListCount l → stringListItem l k = Except.ok p →
        extensionMatches ci extension p →
        (∀ j q, j < k → stringListItem l j = Except.ok q →
          ¬ extensionMatches ci extension q) →
        r = p) ∧
      ((∀ j q, j < stringListCount l → stringListItem l j = Except.ok q →
          ¬ extensionMatches ci extension q) →
        r = vStringPtr.NULL) := by
  have hbound : l.count < UINT_RANGE := by have := hl.1; have := hl.2.1; omega
  have hitem : ∀ j q, j < l.count → stringListItem l j = Except.ok q →
      ∃ u, q = vStringPtr.valid u ∧ l.block[j]? = some (vStringPtr.valid u) := by
    intro j q hj hq
    obtain ⟨x, hx⟩ := hl.valid_at hj
    rw [stringListItem_eq l j _ hx] at hq
    cases hq
    exact ⟨x, rfl, hx⟩
  rw [stringListExtensionFinds_eq, stringListExtensionMatched_eq]
  by_cases h : ∃ k v, k < l.count ∧ l.block[k]? = some (vStringPtr.valid v) ∧
      (if ci then decide (lowerCase v.buffer = lowerCase extension)
        else decide (v.buffer = extension)) = true
  · obtain ⟨k, w, hk, hw, hP, hno⟩ := exists_first_match l _ h
    have hidx := stringListIndex_first l hl extension (extensionTest ci) _
      (extensionTest_valid ci extension) k hk w hw hP hno
    have hne : toInt k ≠ -1 := toInt_ne_neg_one (by omega)
    have hne' : (toInt k == -1) = false := by simpa using hne
    refine ⟨vStringPtr.valid w, true, ?_, ?_, by simp, ?_, ?_⟩
    · simp only [stringListFinds, hidx, bind, Except.bind, hne', Bool.false_eq_true, if_false,
        toUnsigned_toInt (Nat.lt_trans hk hbound)]
      exact stringListItem_eq l k _ hw
    · simp [hidx, Except.map, hne]
    · intro k' p hk' hp hmatch hfirst
      obtain ⟨u, rfl, hu⟩ := hitem k' p hk' hp
      have hkk : k' = k := by
        rcases Nat.lt_trichotomy k' k with hlt | heq | hgt
        · have := hno k' u hlt hu
          rw [(extensionMatches_valid ci extension u).mp hmatch] at this
          exact absurd this (by simp)
        · exact heq
        · exact absurd ((extensionMatches_valid ci extension w).mpr hP)
            (hfirst k _ hgt (stringListItem_eq l k _ hw))
      subst hkk
      rw [hw] at hu
      exact Option.some.inj hu
    · intro hnone
      exact absurd ((extensionMatches_valid ci extension w).mpr hP)
        (hnone k _ hk (stringListItem_eq l k _ hw))
  · have hno : ∀ k v, k < l.count → l.block[k]? = some (vStringPtr.valid v) →
        (if ci then decide (lowerCase v.buffer = lowerCase extension)
          else decide (v.buffer = extension)) = false := by
      intro k v hk hv
      by_contra hc
      exact h ⟨k, v, hk, hv, (Bool.not_eq_false _).mp hc⟩
    have hidx := stringListIndex_none l hl extension (extensionTest ci) _
      (extensionTest_valid ci extension) hno
    refine ⟨vStringPtr.NULL, false, ?_, ?_, by simp, ?_, fun _ => rfl⟩
    · simp [stringListFinds, hidx, bind, Except.bind, pure, Except.pure]
    · simp [hidx, Except.map]
    · intro k p hk hp hmatch _
      obtain ⟨u, rfl, hu⟩ := hitem k p hk hp
      have := hno k u hk hu
      rw [(extensionMatches_valid ci extension u).mp hmatch] at this
      exact absurd this (by simp)

/-- C11 at a concrete input: in `["c", "cpp", "h"]` the extension `"cpp"` finds the stored
item `"cpp"`, and `"java"` finds nothing; with case ignored `"CPP"` finds `"cpp"`. -/
theorem stringListExtensionFinds_first_match_witness :
    WF (listOf ["c", "cpp", "h"]) ∧
    (∃ r b, stringListExtensionFinds false (listOf ["c", "cpp", "h"]) "cpp" = Except.ok r ∧
      stringListExtensionMatched false (listOf ["c", "cpp", "h"]) "cpp" = Except.ok b ∧
      (b = true ↔ r ≠ vStringPtr.NULL) ∧
      (∀ k p, k < stringListCount (listOf ["c", "cpp", "h"]) →
        stringListItem (listOf ["c", "cpp", "h"]) k = Except.ok p →
        extensionMatches false "cpp" p →
        (∀ j q, j < k → stringListItem (listOf ["c", "cpp", "h"]) j = Except.ok q →
          ¬ extensionMatches false "cpp" q) →
        r = p) ∧
      ((∀ j q, j < stringListCount (listOf ["c", "cpp", "h"]) →
          stringListItem (listOf ["c", "cpp", "h"]) j = Except.ok q →
          ¬ extensionMatches false "cpp" q) →
        r = vStringPtr.NULL)) ∧
    stringListExtensionFinds false (listOf ["c", "cpp", "h"]) "cpp"
      = Except.ok (vStringPtr.valid (vString.mk "cpp")) ∧
    stringListExtensionFinds false (listOf ["c", "cpp", "h"]) "java"
      = Except.ok vStringPtr.NULL ∧
    stringListExtensionMatched false (listOf ["c", "cpp", "h"]) "java" = Except.ok false ∧
    stringListExtensionFinds true (listOf ["c", "cpp", "h"]) "CPP"
      = Except.ok (vStringPtr.valid (vString.mk "cpp")) :=
  ⟨by decide, stringListExtensionFinds_first_match false _ (by decide) "cpp",
    by decide, by decide, by decide, by decide⟩

/-- The scan of `stringListHasTest` from index `i` ends false when no item from `i` on
satisfies the predicate. -/
theorem stringListHasTestLoop_none {U : Type} (l : stringList) (hl : WF l)
    (test : String → U → Bool) (userData : U) :
    ∀ (fuel i : Nat), l.count - i < fuel →
      (∀ k v, i ≤ k → k < l.count → l.block[k]? = some (vStringPtr.valid v) →
        test v.buffer userData = false) →
      stringListHasTestLoop l test userData fuel i false = Except.ok false := by
  intro fuel
  induction fuel with
  | zero => intro i h; omega
  | succ fuel ih =>
    intro i hfuel hno
    unfold stringListHasTestLoop
    by_cases hlt : i < l.count
    · obtain ⟨v, hv⟩ := hl.valid_at hlt
      have hmod : (i + 1) % UINT_RANGE = i + 1 :=
        Nat.mod_eq_of_lt (by have := hl.1; have := hl.2.1; omega)
      have hP := hno i v (Nat.le_refl i) hlt hv
      simp only [hlt, Bool.not_false, and_self, if_true, readSlot_block hv, vStringValue, bind,
        Except.bind, pure, Except.pure, hP, hmod]
      exact ih (i + 1) (by omega) (fun k u hk1 hk2 hu => hno k u (by omega) hk2 hu)
    · simp [hlt, pure, Except.pure]

/-- The scan of `stringListHasTest` from index `i` ends true at the first item from `i` on
that satisfies the predicate. -/
theorem stringListHasTestLoop_first {U : Type} (l : stringList) (hl : WF l)
    (test : String → U → Bool) (userData : U)
    (k : Nat) (hk : k < l.count) (w : vString) (hw : l.block[k]? = some (vStringPtr.valid w))
    (hPw : test w.buffer userData = true) :
    ∀ (fuel i : Nat), l.count - i < fuel → i ≤ k →
      (∀ j v, i ≤ j → j < k → l.block[j]? = some (vStringPtr.valid v) →
        test v.buffer userData = false) →
      stringListHasTestLoop l test userData fuel i false = Except.ok true := by
  intro fuel
  induction fuel with
  | zero => intro i h; omega
  | succ fuel ih =>
    intro i hfuel hik hno
    have hbound : l.count < UINT_RANGE := by have := hl.1; have := hl.2.1; omega
    unfold stringListHasTestLoop
    have hlt : i < l.count := by omega
    have hmod : (i + 1) % UINT_RANGE = i + 1 := Nat.mod_eq_of_lt (by omega)
    by_cases hik' : i = k
    · subst hik'
      simp only [hlt, Bool.not_false, and_self, if_true, readSlot_block hw, vStringValue, bind,
        Except.bind, pure, Except.pure, hPw, hmod]
      cases fuel with
      | zero => omega
      | succ fuel =>
        unfold stringListHasTestLoop
        simp [pure, Except.pure]
    · obtain ⟨v, hv⟩ := hl.valid_at hlt
      have hP := hno i v (Nat.le_refl i) (by omega) hv
      simp only [hlt, Bool.not_false, and_self, if_true, readSlot_block hv, vStringValue, bind,
        Except.bind, pure, Except.pure, hP, hmod]
      exact ih (i + 1) (by omega) (by omega)
        (fun j u hj1 hj2 hu => hno j u (by omega) hj2 hu)

/-- C12: for every list, predicate and user context, `stringListHasTest` returns, and
returns true exactly when the predicate holds for the text of some item at an index below
the count; so it returns false on the empty list and when no item satisfies the
predicate. -/
theorem stringListHasTest_iff {U : Type} (l : stringList) (hl : WF l)
    (test : String → U → Bool) (userData : U) :
    ∃ b, stringListHasTest l test userData = Except.ok b ∧
      (b = true ↔ ∃ i, i < stringListCount l ∧
        ∃ p, stringListItem l i = Except.ok p ∧
          ∃ v, p = vStringPtr.valid v ∧ test v.buffer userData = true) := by
  rw [item_textual_iff l hl (fun v => test v.buffer userData = true)]
  by_cases h : ∃ k v, k < l.count ∧ l.block[k]? = some (vStringPtr.valid v) ∧
      test v.buffer userData = true
  · obtain ⟨k, w, hk, hw, hP, hno⟩ :=
      exists_first_match l (fun v => test v.buffer userData) h
    exact ⟨true, stringListHasTestLoop_first l hl test userData k hk w hw hP (l.count + 1) 0
      (by omega) (by omega) (fun j v _ hj hv => hno j v hj hv), ⟨fun _ => h, fun _ => rfl⟩⟩
  · have hno : ∀ k v, 0 ≤ k → k < l.count → l.block[k]? = some (vStringPtr.valid v) →
        test v.buffer userData = false := by
      intro k v _ hk hv
      by_contra hc
      exact h ⟨k, v, hk, hv, (Bool.not_eq_false _).mp hc⟩
    exact ⟨false, stringListHasTestLoop_none l hl test userData (l.count + 1) 0 (by omega) hno,
      ⟨fun hc => absurd hc (by simp), fun hc => absurd hc h⟩⟩

/-- C12 at a concrete input: in `["c", "cpp", "h"]` some text has the length 3 given as
user context, and no text has the length 4; the empty list has no such text. -/
theorem stringListHasTest_iff_witness :
    WF (listOf ["c", "cpp", "h"]) ∧
    (∃ b, stringListHasTest (listOf ["c", "cpp", "h"]) (fun s n => s.length == n) 3
        = Except.ok b ∧
      (b = true ↔ ∃ i, i < stringListCount (listOf ["c", "cpp", "h"]) ∧
        ∃ p, stringListItem (listOf ["c", "cpp", "h"]) i = Except.ok p ∧
          ∃ v, p = vStringPtr.valid v ∧ (fun s n => s.length == n) v.buffer 3 = true)) ∧
    stringListHasTest (listOf ["c", "cpp", "h"]) (fun s n => s.length == n) 3
      = Except.ok true ∧
    stringListHasTest (listOf ["c", "cpp", "h"]) (fun s n => s.length == n) 4
      = Except.ok false ∧
    stringListHasTest stringListNew (fun s n => s.length == n) 0 = Except.ok false :=
  ⟨by decide, stringListHasTest_iff _ (by decide) _ 3, by decide, by decide, by decide⟩

/-- C13: for every list, `stringListClear` returns, the count is then 0, the capacity and
the backing storage are the ones from before the call (the same number of slots, `NULL`
storage stays `NULL`, the slots from the old count on keep their content), and every
slot that held an item holds `NULL`. -/
theorem stringListClear_empties (l : stringList) (hl : WF l) :
    ∃ l', stringListClear l = Except.ok l' ∧
      stringListCount l' = 0 ∧ l'.max = l.max ∧
      l'.block.length = l.block.length ∧ (l'.list = none ↔ l.list = none) ∧
      (∀ i, i < stringListCount l → stringListItem l' i = Except.ok vStringPtr.NULL) ∧
      (∀ i, stringListCount l ≤ i → l'.block[i]? = l.block[i]?) := by
  have hvalid : ∀ k, k < l.count → l.block[k]? ≠ some vStringPtr.indeterminate := by
    intro k hk hc
    obtain ⟨v, hv⟩ := hl.valid_at hk
    rw [hv] at hc
    cases hc
  obtain ⟨mx, ct, list⟩ := l
  obtain ⟨hcm, hmax, hlen, _⟩ := hl
  simp only [stringList.block, stringListCount] at *
  cases list with
  | none =>
    simp only [Option.getD_none, List.length_nil] at hlen
    have hc0 : ct = 0 := by omega
    subst hc0
    refine ⟨⟨mx, 0, none⟩, ?_, rfl, rfl, rfl, Iff.rfl, ?_, fun _ _ => rfl⟩
    · simp [stringListClear, stringListClearLoop, bind, Except.bind, pure, Except.pure]
    · intro i hi
      omega
  | some b =>
    simp only [Option.getD_some] at hlen hvalid
    obtain ⟨b', h1, h2, h3⟩ := stringListClearLoop_ok ct (by omega) (ct + 1) 0 b (by omega)
      (by omega) (by omega) (fun k _ hk => hvalid k hk)
    refine ⟨⟨mx, 0, some b'⟩, ?_, rfl, rfl, by simpa using h2, by simp, ?_, ?_⟩
    · simp [stringListClear, h1, bind, Except.bind, pure, Except.pure]
    · intro i hi
      apply stringListItem_eq
      simp only [stringList.block, Option.getD_some]
      rw [h3 i]
      simp [hi]
    · intro i hi
      simp only [Option.getD_some]
      rw [h3 i]
      have : ¬ (0 ≤ i ∧ i < ct) := by omega
      rw [if_neg this]

/-- C13 at a concrete input: `["a", "b", "c"]` is cleared. -/
theorem stringListClear_empties_witness :
    WF (listOf ["a", "b", "c"]) ∧
    ∃ l', stringListClear (listOf ["a", "b", "c"]) = Except.ok l' ∧
      stringListCount l' = 0 ∧ l'.max = (listOf ["a", "b", "c"]).max ∧
      l'.block.length = (listOf ["a", "b", "c"]).block.length ∧
      (l'.list = none ↔ (listOf ["a", "b", "c"]).list = none) ∧
      (∀ i, i < stringListCount (listOf ["a", "b", "c"]) →
        stringListItem l' i = Except.ok vStringPtr.NULL) ∧
      (∀ i, stringListCount (listOf ["a", "b", "c"]) ≤ i →
        l'.block[i]? = (listOf ["a", "b", "c"]).block[i]?) :=
  ⟨by decide, stringListClear_empties _ (by decide)⟩

/-- C15, counterexample: `stringListItem` at an index at or above the count fails no
assertion. On `["a", "b"]` in ten slots, index 2 (the count) returns the never-written
content of slot 2; after `stringListRemoveLast`, index 1 (the new count) returns the
`NULL` left in the vacated slot. So the claim that every such call fails an assertion
does not hold. -/
theorem stringListItem_out_of_range_unasserted :
    WF (listOf ["a", "b"]) ∧ stringListCount (listOf ["a", "b"]) ≤ 2 ∧
    stringListItem (listOf ["a", "b"]) 2 = Except.ok vStringPtr.indeterminate ∧
    ((stringListRemoveLast (listOf ["a", "b"])).map
        (fun l => (stringListCount l, stringListItem l 1)))
      = Except.ok (1, Except.ok vStringPtr.NULL) ∧
    ¬ (∀ (l : stringList) (indx : Nat), WF l → stringListCount l ≤ indx →
        stringListItem l indx = Except.error Fault.assertion) := by
  refine ⟨by decide, by decide, by decide, by decide, ?_⟩
  intro h
  have h2 := h (listOf ["a", "b"]) 2 (by decide) (by decide)
  revert h2
  decide

/-- C15 as amended: for every list and every index at or above the count,
`stringListItem` fails no assertion on the index: below the capacity it returns the
content of that slot, whatever it holds, and from the capacity on the read is outside
the allocated block (or through `NULL` storage), which is not an assertion failure. -/
theorem stringListItem_unchecked (l : stringList) (hl : WF l) (indx : Nat)
    (_hindx : stringListCount l ≤ indx) :
    stringListItem l indx ≠ Except.error Fault.assertion ∧
    (indx < l.max → ∃ p, l.block[indx]? = some p ∧ stringListItem l indx = Except.ok p) ∧
    (l.max ≤ indx → stringListItem l indx
      = Except.error (if l.list = none then Fault.nullPointer else Fault.outOfBounds)) := by
  obtain ⟨mx, ct, list⟩ := l
  obtain ⟨hcm, hmax, hlen, _⟩ := hl
  simp only [stringList.block] at *
  cases list with
  | none =>
    simp only [Option.getD_none, List.length_nil] at hlen
    subst hlen
    refine ⟨by simp [stringListItem, readSlot, throw, throwThe, MonadExceptOf.throw], ?_, ?_⟩
    · intro h
      omega
    · intro _
      simp [stringListItem, readSlot, throw, throwThe, MonadExceptOf.throw]
  | some b =>
    simp only [Option.getD_some] at hlen
    subst hlen
    by_cases hlt : indx < b.length
    · have hget : b[indx]? = some b[indx] := List.getElem?_eq_getElem hlt
      have hitem : stringListItem ⟨b.length, ct, some b⟩ indx = Except.ok b[indx] :=
        readSlot_ok hget
      refine ⟨by rw [hitem]; simp, fun _ => ⟨b[indx], by simp [hget], hitem⟩, ?_⟩
      intro h
      have h' : b.length ≤ indx := h
      omega
    · have hget : b[indx]? = none := List.getElem?_eq_none (by omega)
      have hitem : stringListItem ⟨b.length, ct, some b⟩ indx
          = Except.error Fault.outOfBounds := by
        simp [stringListItem, readSlot, hget, throw, throwThe, MonadExceptOf.throw]
      refine ⟨by rw [hitem]; simp, ?_, fun _ => by simpa using hitem⟩
      intro h
      have h' : indx < b.length := h
      omega

/-- C15 as amended, at a concrete input: index 2 of `["a", "b"]` in ten slots. -/
theorem stringListItem_unchecked_witness :
    WF (listOf ["a", "b"]) ∧ stringListCount (listOf ["a", "b"]) ≤ 2 ∧
    stringListItem (listOf ["a", "b"]) 2 ≠ Except.error Fault.assertion ∧
    (2 < (listOf ["a", "b"]).max →
      ∃ p, (listOf ["a", "b"]).block[2]? = some p ∧
        stringListItem (listOf ["a", "b"]) 2 = Except.ok p) ∧
    ((listOf ["a", "b"]).max ≤ 2 → stringListItem (listOf ["a", "b"]) 2
      = Except.error (if (listOf ["a", "b"]).list = none then Fault.nullPointer
          else Fault.outOfBounds)) :=
  ⟨by decide, by decide, stringListItem_unchecked _ (by decide) 2 (by decide)⟩

/-- C16: `stringListRemoveLast` and `stringListLast` check `count > 0` before anything
else: on a list with count 0 each fails its assertion (so neither the count nor a slot is
touched), an assertion failure happens only then, and on a list with count above 0 both
return. -/
theorem stringListRemoveLast_Last_guarded (l : stringList) :
    (stringListCount l = 0 →
      stringListRemoveLast l = Except.error Fault.assertion ∧
      stringListLast l = Except.error Fault.assertion) ∧
    (stringListRemoveLast l = Except.error Fault.assertion ↔ stringListCount l = 0) ∧
    (stringListLast l = Except.error Fault.assertion ↔ stringListCount l = 0) ∧
    (WF l → 0 < stringListCount l →
      (∃ l', stringListRemoveLast l = Except.ok l') ∧ ∃ p, stringListLast l = Except.ok p) := by
  have hzero : stringListCount l = 0 →
      stringListRemoveLast l = Except.error Fault.assertion ∧
      stringListLast l = Except.error Fault.assertion := by
    intro h0
    have h0' : l.count = 0 := h0
    simp [stringListRemoveLast, stringListLast, Assert, h0', bind, Except.bind, throw,
      throwThe, MonadExceptOf.throw]
  have hremove : 0 < l.count → stringListRemoveLast l ≠ Except.error Fault.assertion := by
    intro hpos
    obtain ⟨mx, ct, list⟩ := l
    simp only at hpos
    cases list with
    | none =>
      simp [stringListRemoveLast, Assert, hpos, writeSlot, bind, Except.bind, pure,
        Except.pure, throw, throwThe, MonadExceptOf.throw]
    | some b =>
      by_cases hw : (ct + UINT_RANGE - 1) % UINT_RANGE < b.length <;>
        simp [stringListRemoveLast, Assert, hpos, writeSlot, hw, bind, Except.bind, pure,
          Except.pure, throw, throwThe, MonadExceptOf.throw]
  have hlast : 0 < l.count → stringListLast l ≠ Except.error Fault.assertion := by
    intro hpos
    obtain ⟨mx, ct, list⟩ := l
    simp only at hpos
    cases list with
    | none =>
      simp [stringListLast, Assert, hpos, readSlot, bind, Except.bind, pure,
        Except.pure, throw, throwThe, MonadExceptOf.throw]
    | some b =>
      cases hr : b[(ct + UINT_RANGE - 1) % UINT_RANGE]? <;>
        simp [stringListLast, Assert, hpos, readSlot, hr, bind, Except.bind, pure,
          Except.pure, throw, throwThe, MonadExceptOf.throw]
  refine ⟨hzero, ⟨?_, fun h => (hzero h).1⟩, ⟨?_, fun h => (hzero h).2⟩, ?_⟩
  · intro h
    by_contra hne
    exact hremove (Nat.pos_of_ne_zero hne) h
  · intro h
    by_contra hne
    exact hlast (Nat.pos_of_ne_zero hne) h
  · intro hl hpos
    obtain ⟨mx, ct, list⟩ := l
    obtain ⟨hcm, hmax, hlen, _⟩ := hl
    simp only [stringList.block, stringListCount] at *
    cases list with
    | none =>
      simp only [Option.getD_none, List.length_nil] at hlen
      omega
    | some b =>
      simp only [Option.getD_some] at hlen
      subst hlen
      have hpred : (ct + UINT_RANGE - 1) % UINT_RANGE = ct - 1 :=
        pred_mod_uint hpos (by omega)
      have hlt : ct - 1 < b.length := by omega
      constructor
      · exact ⟨⟨b.length, ct - 1, some (b.set (ct - 1) vStringPtr.NULL)⟩,
          by simp [stringListRemoveLast, Assert, hpos, hpred, writeSlot_ok _ hlt,
            bind, Except.bind, pure, Except.pure]⟩
      · exact ⟨b[ct - 1], by simp [stringListLast, Assert, hpos, hpred,
          readSlot_ok (List.getElem?_eq_getElem hlt), bind, Except.bind, pure, Except.pure]⟩

/-- C16 at a concrete input: the well-formed list `["a"]`, on which both calls return;
on the new, empty list both fail their assertion. -/
theorem stringListRemoveLast_Last_guarded_witness :
    WF (listOf ["a"]) ∧ 0 < stringListCount (listOf ["a"]) ∧
    ((∃ l', stringListRemoveLast (listOf ["a"]) = Except.ok l') ∧
      ∃ p, stringListLast (listOf ["a"]) = Except.ok p) ∧
    stringListRemoveLast stringListNew = Except.error Fault.assertion ∧
    stringListLast stringListNew = Except.error Fault.assertion :=
  ⟨by decide, by decide,
    (stringListRemoveLast_Last_guarded (listOf ["a"])).2.2.2 (by decide) (by decide),
    by decide, by decide⟩

/-- The move length `shiftLength` is the one `stringListDeleteItemExtension` passes to
`memmove`. -/
theorem stringListDeleteItemExtension_shiftLength (ci : Bool) (current : stringList)
    (extension : String) :
    stringListDeleteItemExtension ci current extension =
      (do
        let where_ ← stringListIndex current extension (extensionTest ci)
        if where_ != -1 then do
          let w ← slotOffset where_
          let itm ← readSlot current.list w
          vStringDelete itm
          let list ← memmove current.list w (w + 1) (shiftLength current where_)
          let list ← writeSlot list ((current.count + UINT_RANGE - 1) % UINT_RANGE)
            vStringPtr.NULL
          pure (true, { current with
                        list := list, count := (current.count + UINT_RANGE - 1) % UINT_RANGE })
        else pure (false, current)) := rfl

/-- For a match at index `k` the code moves `count - k` slots, one more than the
`count - k - 1` slots that follow the match. -/
theorem shiftLength_eq (l : stringList) (hl : WF l) (k : Nat) (hk : k < l.count) :
    shiftLength l (k : Int) = l.count - k ∧ shiftLength l (k : Int) = (l.count - k - 1) + 1 := by
  have hbound : l.count < UINT_RANGE := by have := hl.1; have := hl.2.1; omega
  have h : shiftLength l (k : Int) = l.count - k := by
    unfold shiftLength toUnsigned UINT_RANGE at *
    omega
  exact ⟨h, by omega⟩

/-- A successful `memmove` touched only slots of the block. -/
theorem memmove_ok_slots (b : List vStringPtr) (dst src n : Nat)
    (r : Option (List vStringPtr)) (h : memmove (some b) dst src n = Except.ok r) :
    ∀ i ∈ memmoveSlots dst src n, i < b.length := by
  unfold memmove at h
  by_cases hc : src + n ≤ b.length ∧ dst + n ≤ b.length
  · intro i hi
    simp only [memmoveSlots, List.mem_append, List.mem_map, List.mem_range] at hi
    rcases hi with ⟨j, hj, rfl⟩ | ⟨j, hj, rfl⟩ <;> omega
  · simp [hc, throw, throwThe, MonadExceptOf.throw] at h

/-- For a match at index `k` the shift always reads the slot of index `count`, which on a
list filled to its capacity is the first index outside the block. -/
theorem shift_reads_slot_count (l : stringList) (hl : WF l) (k : Nat) (hk : k < l.count) :
    l.count ∈ memmoveSlots k (k + 1) (shiftLength l (k : Int)) := by
  rw [(shiftLength_eq l hl k hk).1]
  simp only [memmoveSlots, List.mem_append, List.mem_map, List.mem_range]
  exact Or.inl ⟨l.count - k - 1, by omega, by omega⟩

/-- C17, the failing input: the matched item is the last element. In `["c", "cpp", "h"]`
the extension `"h"` is found at index 2 = count - 1 and the move length is 1, not 0: the
slot of index 3 is copied into slot 2. On the list filled to its capacity by ten appends,
the match of `"ipp"` at index 9 = count - 1 has move length 1 as well, the slot read has
index 10 in a block of 10 slots and the call has no result; a move of length 0 at that
place touches no slot. -/
theorem stringListDeleteItemExtension_last_moves_one :
    stringListIndex (listOf ["c", "cpp", "h"]) "h" compareString = Except.ok 2 ∧
    shiftLength (listOf ["c", "cpp", "h"]) 2 = 1 ∧
    memmoveSlots 2 3 (shiftLength (listOf ["c", "cpp", "h"]) 2) = [3, 2] ∧
    stringListIndex (listOf ["c", "cpp", "h", "hpp", "cc", "cxx", "hh", "hxx", "inl", "ipp"])
      "ipp" compareString = Except.ok 9 ∧
    shiftLength (listOf ["c", "cpp", "h", "hpp", "cc", "cxx", "hh", "hxx", "inl", "ipp"]) 9
      = 1 ∧
    memmoveSlots 9 10
        (shiftLength (listOf ["c", "cpp", "h", "hpp", "cc", "cxx", "hh", "hxx", "inl", "ipp"]) 9)
      = [10, 9] ∧
    stringListDeleteItemExtension false
        (listOf ["c", "cpp", "h", "hpp", "cc", "cxx", "hh", "hxx", "inl", "ipp"]) "ipp"
      = Except.error Fault.outOfBounds ∧
    memmoveSlots 9 10 0 = [] ∧
    memmove (listOf ["c", "cpp", "h", "hpp", "cc", "cxx", "hh", "hxx", "inl", "ipp"]).list
        9 10 0
      = Except.ok (listOf ["c", "cpp", "h", "hpp", "cc", "cxx", "hh", "hxx", "inl", "ipp"]).list := by
  decide

/-- C18, the failing input: the list filled to its capacity by ten appends
(count = capacity = 10) and the stored extension `"c"`, found at index 0. The shift reads
the slots 1 to 10 and writes the slots 0 to 9: the slot of index 10 is not below the
capacity, and the call has no result. -/
theorem stringListDeleteItemExtension_shift_leaves_block :
    addAll (["c", "cpp", "h", "hpp", "cc", "cxx", "hh", "hxx", "inl", "ipp"].map
        (fun s => vStringPtr.valid (vString.mk s)))
      = Except.ok (listOf ["c", "cpp", "h", "hpp", "cc", "cxx", "hh", "hxx", "inl", "ipp"]) ∧
    (listOf ["c", "cpp", "h", "hpp", "cc", "cxx", "hh", "hxx", "inl", "ipp"]).count = 10 ∧
    (listOf ["c", "cpp", "h", "hpp", "cc", "cxx", "hh", "hxx", "inl", "ipp"]).max = 10 ∧
    (listOf ["c", "cpp", "h", "hpp", "cc", "cxx", "hh", "hxx", "inl", "ipp"]).block.length
      = 10 ∧
    stringListIndex (listOf ["c", "cpp", "h", "hpp", "cc", "cxx", "hh", "hxx", "inl", "ipp"])
      "c" compareString = Except.ok 0 ∧
    memmoveSlots 0 1
        (shiftLength (listOf ["c", "cpp", "h", "hpp", "cc", "cxx", "hh", "hxx", "inl", "ipp"]) 0)
      = [1, 2, 3, 4, 5, 6, 7, 8, 9, 10, 0, 1, 2, 3, 4, 5, 6, 7, 8, 9] ∧
    ¬ (∀ i ∈ memmoveSlots 0 1
        (shiftLength (listOf ["c", "cpp", "h", "hpp", "cc", "cxx", "hh", "hxx", "inl", "ipp"]) 0),
        i < (listOf ["c", "cpp", "h", "hpp", "cc", "cxx", "hh", "hxx", "inl", "ipp"]).max) ∧
    stringListDeleteItemExtension false
        (listOf ["c", "cpp", "h", "hpp", "cc", "cxx", "hh", "hxx", "inl", "ipp"]) "c"
      = Except.error Fault.outOfBounds := by
  decide

/-! ## The invariant `count ≤ max` -/

theorem bind_eq_ok {α β : Type} {x : Except Fault α} {f : α → Except Fault β} {b : β}
    (h : (x >>= f) = Except.ok b) : ∃ a, x = Except.ok a ∧ f a = Except.ok b := by
  cases x with
  | error e => simp [bind, Except.bind] at h
  | ok a => exact ⟨a, rfl, h⟩

theorem writeSlot_eq_ok {list r : Option (List vStringPtr)} {i : Nat} {p : vStringPtr}
    (h : writeSlot list i p = Except.ok r) :
    ∃ b, list = some b ∧ i < b.length ∧ r = some (b.set i p) := by
  cases list with
  | none => simp [writeSlot, throw, throwThe, MonadExceptOf.throw] at h
  | some b =>
    by_cases hi : i < b.length
    · simp only [writeSlot, hi, if_true, pure, Except.pure] at h
      cases h
      exact ⟨b, rfl, hi, rfl⟩
    · simp [writeSlot, hi, throw, throwThe, MonadExceptOf.throw] at h

theorem readSlot_eq_ok {list : Option (List vStringPtr)} {i : Nat} {p : vStringPtr}
    (h : readSlot list i = Except.ok p) : ∃ b, list = some b ∧ b[i]? = some p := by
  cases list with
  | none => simp [readSlot, throw, throwThe, MonadExceptOf.throw] at h
  | some b =>
    cases hg : b[i]? with
    | none => simp [readSlot, hg, throw, throwThe, MonadExceptOf.throw] at h
    | some q =>
      simp only [readSlot, hg, pure, Except.pure] at h
      cases h
      exact ⟨b, rfl, hg⟩

/-- Whenever `stringListAdd` returns, the storage invariant holds again (at the wrap of
`max` the write is outside the shrunk block, so there is no result). -/
theorem stringListAdd_sized (l : stringList) (p : vStringPtr) (h : Sized l)
    (l' : stringList) (hok : stringListAdd l p = Except.ok l') : Sized l' := by
  by_cases hroom : l.count < l.max ∨ l.max + 10 < UINT_RANGE
  · obtain ⟨l'', h1, hs, _, _⟩ := stringListAdd_ok l p h hroom
    rw [h1] at hok
    cases hok
    exact hs
  · exfalso
    obtain ⟨mx, ct, list⟩ := l
    obtain ⟨hcm, hlen, hmax⟩ := h
    simp only [stringList.block] at *
    cases list with
    | none =>
      simp only [Option.getD_none, List.length_nil] at hlen
      unfold UINT_RANGE at *
      omega
    | some b =>
      simp only [Option.getD_some] at hlen
      subst hlen
      have hfull : ct = b.length := by omega
      subst hfull
      have hsmall : (b.length + incrementalIncrease) % UINT_RANGE < b.length := by
        unfold UINT_RANGE incrementalIncrease at *
        omega
      unfold stringListAdd at hok
      simp only [reduceCtorEq, if_false, if_true, pure, Except.pure, bind, Except.bind] at hok
      generalize (b.length + incrementalIncrease) % UINT_RANGE = m at hsmall hok
      have hnot : ¬ b.length < (xRealloc (some b) m).length := by
        simp only [xRealloc, Option.getD_some, List.length_take, List.length_append,
          List.length_replicate]
        omega
      simp only [writeSlot, hnot, if_false, throw, throwThe, MonadExceptOf.throw] at hok
      cases hok

theorem stringListRemoveLast_sized (l : stringList) (h : Sized l)
    (l' : stringList) (hok : stringListRemoveLast l = Except.ok l') : Sized l' := by
  obtain ⟨mx, ct, list⟩ := l
  obtain ⟨hcm, hlen, hmax⟩ := h
  simp only [stringList.block] at *
  unfold stringListRemoveLast at hok
  obtain ⟨_, hassert, hok⟩ := bind_eq_ok hok
  have hpos : 0 < ct := by
    by_contra hc
    simp [Assert, hc, throw, throwThe, MonadExceptOf.throw] at hassert
  obtain ⟨r, hw, hok⟩ := bind_eq_ok hok
  obtain ⟨b, hb, _, hr⟩ := writeSlot_eq_ok hw
  simp only [pure, Except.pure] at hok
  cases hok
  simp only at hb
  subst hb
  subst hr
  simp only [Option.getD_some] at hlen
  have hpred : (ct + UINT_RANGE - 1) % UINT_RANGE = ct - 1 := pred_mod_uint hpos (by omega)
  refine ⟨?_, ?_, hmax⟩
  · show (ct + UINT_RANGE - 1) % UINT_RANGE ≤ mx
    omega
  · simpa [stringList.block] using hlen

/-- Whenever the loop of `stringListClear` returns, the block has the length it had. -/
theorem stringListClearLoop_length (count : Nat) :
    ∀ (fuel i : Nat) (list r : Option (List vStringPtr)),
      stringListClearLoop count fuel i list = Except.ok r →
      (r.getD []).length = (list.getD []).length := by
  intro fuel
  induction fuel with
  | zero =>
    intro i list r h
    simp [stringListClearLoop, throw, throwThe, MonadExceptOf.throw] at h
  | succ fuel ih =>
    intro i list r h
    unfold stringListClearLoop at h
    by_cases hlt : i < count
    · simp only [hlt, if_true] at h
      obtain ⟨itm, _, h⟩ := bind_eq_ok h
      obtain ⟨_, _, h⟩ := bind_eq_ok h
      obtain ⟨list1, hw, h⟩ := bind_eq_ok h
      obtain ⟨b, hb, _, hr⟩ := writeSlot_eq_ok hw
      rw [ih _ _ _ h, hr, hb]
      simp
    · simp only [hlt, if_false, pure, Except.pure] at h
      cases h
      rfl

theorem stringListClear_sized (l : stringList) (h : Sized l)
    (l' : stringList) (hok : stringListClear l = Except.ok l') : Sized l' := by
  unfold stringListClear at hok
  obtain ⟨r, hloop, hok⟩ := bind_eq_ok hok
  simp only [pure, Except.pure] at hok
  cases hok
  have hlen := stringListClearLoop_length _ _ _ _ _ hloop
  exact ⟨Nat.zero_le _, by simpa [stringList.block] using hlen.trans h.2.1, h.2.2⟩

/-- Whenever the loop of `stringListReverse` returns, the block has the length it had. -/
theorem stringListReverseLoop_length (count : Nat) :
    ∀ (fuel i j : Nat) (list r : Option (List vStringPtr)),
      stringListReverseLoop count fuel i j list = Except.ok r →
      (r.getD []).length = (list.getD []).length := by
  intro fuel
  induction fuel with
  | zero =>
    intro i j list r h
    simp [stringListReverseLoop, throw, throwThe, MonadExceptOf.throw] at h
  | succ fuel ih =>
    intro i j list r h
    unfold stringListReverseLoop at h
    by_cases hlt : i < count / 2
    · simp only [hlt, if_true] at h
      obtain ⟨tmp, _, h⟩ := bind_eq_ok h
      obtain ⟨atJ, _, h⟩ := bind_eq_ok h
      obtain ⟨list1, hw1, h⟩ := bind_eq_ok h
      obtain ⟨list2, hw2, h⟩ := bind_eq_ok h
      obtain ⟨b1, hb1, _, hr1⟩ := writeSlot_eq_ok hw1
      obtain ⟨b2, hb2, _, hr2⟩ := writeSlot_eq_ok hw2
      rw [ih _ _ _ _ h, hr2]
      rw [hr1] at hb2
      cases hb2
      rw [hb1]
      simp
    · simp only [hlt, if_false, pure, Except.pure] at h
      cases h
      rfl

theorem stringListReverse_sized (l : stringList) (h : Sized l)
    (l' : stringList) (hok : stringListReverse l = Except.ok l') : Sized l' := by
  unfold stringListReverse at hok
  obtain ⟨r, hloop, hok⟩ := bind_eq_ok hok
  simp only [pure, Except.pure] at hok
  cases hok
  have hlen := stringListReverseLoop_length _ _ _ _ _ _ hloop
  exact ⟨h.1, by simpa [stringList.block] using hlen.trans h.2.1, h.2.2⟩

/-- On a list without items the scan of `stringListIndex` finds nothing. -/
theorem stringListIndex_empty (l : stringList) (h0 : l.count = 0) (s : String)
    (test : String → vStringPtr → Except Fault Bool) :
    stringListIndex l s test = Except.ok (-1) := by
  simp [stringListIndex, stringListIndexLoop, h0, pure, Except.pure]

theorem memmove_eq_ok {list r : Option (List vStringPtr)} {dst src n : Nat}
    (h : memmove list dst src n = Except.ok r) :
    (r.getD []).length = (list.getD []).length := by
  cases list with
  | none => simp [memmove, throw, throwThe, MonadExceptOf.throw] at h
  | some b =>
    unfold memmove at h
    by_cases hc : src + n ≤ b.length ∧ dst + n ≤ b.length
    · simp only [hc, and_self, if_true, pure, Except.pure] at h
      cases h
      simp only [Option.getD_some, List.length_append, List.length_take, List.length_drop]
      omega
    · simp [hc, throw, throwThe, MonadExceptOf.throw] at h

theorem stringListDeleteItemExtension_sized (ci : Bool) (l : stringList) (h : Sized l)
    (extension : String) (b : Bool) (l' : stringList)
    (hok : stringListDeleteItemExtension ci l extension = Except.ok (b, l')) : Sized l' := by
  unfold stringListDeleteItemExtension at hok
  obtain ⟨where_, hidx, hok⟩ := bind_eq_ok hok
  by_cases hw : (where_ != -1) = true
  · simp only [hw, if_true] at hok
    obtain ⟨w, _, hok⟩ := bind_eq_ok hok
    obtain ⟨itm, _, hok⟩ := bind_eq_ok hok
    obtain ⟨_, _, hok⟩ := bind_eq_ok hok
    obtain ⟨list1, hmove, hok⟩ := bind_eq_ok hok
    obtain ⟨list2, hwrite, hok⟩ := bind_eq_ok hok
    simp only [pure, Except.pure] at hok
    cases hok
    have hpos : 0 < l.count := by
      by_contra hc
      rw [stringListIndex_empty l (by omega)] at hidx
      cases hidx
      simp at hw
    have hlen1 := memmove_eq_ok hmove
    obtain ⟨b2, hb2, _, hr2⟩ := writeSlot_eq_ok hwrite
    have hbound : l.count < UINT_RANGE := by have := h.1; have := h.2.2; omega
    refine ⟨?_, ?_, h.2.2⟩
    · show (l.count + UINT_RANGE - 1) % UINT_RANGE ≤ l.max
      rw [pred_mod_uint hpos hbound]
      have := h.1
      omega
    · show (list2.getD []).length = l.max
      rw [hr2, ← h.2.1]
      simp only [Option.getD_some, List.length_set]
      rw [hb2] at hlen1
      simpa [stringList.block] using hlen1
  · simp only [hw, pure, Except.pure] at hok
    cases hok
    exact h

/-- Whenever the loop of `stringListCombine` returns, the destination satisfies the
storage invariant again. -/
theorem stringListCombineLoop_sized :
    ∀ (fuel i : Nat) (cur from_ cur' from' : stringList), Sized cur →
      stringListCombineLoop fuel i cur from_ = Except.ok (cur', from') → Sized cur' := by
  intro fuel
  induction fuel with
  | zero =>
    intro i cur from_ cur' from' _ h
    simp [stringListCombineLoop, throw, throwThe, MonadExceptOf.throw] at h
  | succ fuel ih =>
    intro i cur from_ cur' from' hs h
    unfold stringListCombineLoop at h
    by_cases hlt : i < from_.count
    · simp only [hlt, if_true] at h
      obtain ⟨itm, _, h⟩ := bind_eq_ok h
      obtain ⟨cur1, hadd, h⟩ := bind_eq_ok h
      obtain ⟨list1, _, h⟩ := bind_eq_ok h
      exact ih _ _ _ _ _ (stringListAdd_sized cur itm hs cur1 hadd) h
    · simp only [hlt, if_false, pure, Except.pure] at h
      cases h
      exact hs

theorem stringListCombine_sized (l from_ : stringList) (h : Sized l)
    (l' : stringList) (hok : stringListCombine l from_ = Except.ok l') : Sized l' := by
  unfold stringListCombine at hok
  obtain ⟨⟨cur', from'⟩, hloop, hok⟩ := bind_eq_ok hok
  obtain ⟨_, _, hok⟩ := bind_eq_ok hok
  simp only [pure, Except.pure] at hok
  cases hok
  exact stringListCombineLoop_sized _ _ _ _ _ _ h hloop

theorem stringListRemoveLast_returns (l : stringList) (h : Sized l) (hpos : 0 < l.count) :
    ∃ l', stringListRemoveLast l = Except.ok l' := by
  obtain ⟨mx, ct, list⟩ := l
  obtain ⟨hcm, hlen, hmax⟩ := h
  simp only [stringList.block] at *
  cases list with
  | none =>
    simp only [Option.getD_none, List.length_nil] at hlen
    omega
  | some b =>
    simp only [Option.getD_some] at hlen
    subst hlen
    have hpred : (ct + UINT_RANGE - 1) % UINT_RANGE = ct - 1 := pred_mod_uint hpos (by omega)
    have hlt : ct - 1 < b.length := by omega
    exact ⟨⟨b.length, ct - 1, some (b.set (ct - 1) vStringPtr.NULL)⟩,
      by simp [stringListRemoveLast, Assert, hpos, hpred, writeSlot_ok _ hlt,
        bind, Except.bind, pure, Except.pure]⟩

theorem stringListReverse_returns (l : stringList) (h : Sized l) :
    ∃ l', stringListReverse l = Except.ok l' := by
  obtain ⟨mx, ct, list⟩ := l
  obtain ⟨hcm, hlen, hmax⟩ := h
  simp only [stringList.block] at *
  cases list with
  | none =>
    simp only [Option.getD_none, List.length_nil] at hlen
    exact ⟨_, stringListReverse_none mx ct (by omega)⟩
  | some b =>
    simp only [Option.getD_some] at hlen
    obtain ⟨b', h1, _, _⟩ := stringListReverse_some mx ct b (by omega) (by omega)
    exact ⟨_, h1⟩

theorem stringListClear_returns (l : stringList) (hl : WF l) :
    ∃ l', stringListClear l = Except.ok l' := by
  have hvalid : ∀ k, k < l.count → l.block[k]? ≠ some vStringPtr.indeterminate := by
    intro k hk hc
    obtain ⟨v, hv⟩ := hl.valid_at hk
    rw [hv] at hc
    cases hc
  obtain ⟨mx, ct, list⟩ := l
  obtain ⟨hcm, hmax, hlen, _⟩ := hl
  simp only [stringList.block] at *
  cases list with
  | none =>
    simp only [Option.getD_none, List.length_nil] at hlen
    have hc0 : ct = 0 := by omega
    subst hc0
    exact ⟨⟨mx, 0, none⟩, by simp [stringListClear, stringListClearLoop, bind, Except.bind,
      pure, Except.pure]⟩
  | some b =>
    simp only [Option.getD_some] at hlen hvalid
    obtain ⟨b', h1, _, _⟩ := stringListClearLoop_ok ct (by omega) (ct + 1) 0 b (by omega)
      (by omega) (by omega) (fun k _ hk => hvalid k hk)
    exact ⟨⟨mx, 0, some b'⟩, by simp [stringListClear, h1, bind, Except.bind, pure,
      Except.pure]⟩

/-- With a free slot behind the items `stringListDeleteItemExtension` returns, whether the
extension matches an item or not. -/
theorem stringListDeleteItemExtension_returns (ci : Bool) (l : stringList) (hl : WF l)
    (hroom : l.count < l.max) (hint : l.count ≤ 2147483648) (extension : String) :
    ∃ b l', stringListDeleteItemExtension ci l extension = Except.ok (b, l') := by
  by_cases h : ∃ k v, k < l.count ∧ l.block[k]? = some (vStringPtr.valid v) ∧
      (if ci then decide (lowerCase v.buffer = lowerCase extension)
        else decide (v.buffer = extension)) = true
  · obtain ⟨k, w, hk, hw, hP, hno⟩ := exists_first_match l _ h
    obtain ⟨l', h1, _⟩ := stringListDeleteItemExtension_removes ci l hl extension k hk
      (by omega) _ hw ((extensionMatches_valid ci extension w).mpr hP) (by
        intro j q hj hq hmatch
        obtain ⟨u, hu⟩ := hl.valid_at (Nat.lt_trans hj hk)
        rw [hu] at hq
        cases hq
        have := hno j u hj hu
        rw [(extensionMatches_valid ci extension u).mp hmatch] at this
        exact absurd this (by simp)) hroom
    exact ⟨true, l', h1⟩
  · have hno : ∀ k v, k < l.count → l.block[k]? = some (vStringPtr.valid v) →
        (if ci then decide (lowerCase v.buffer = lowerCase extension)
          else decide (v.buffer = extension)) = false := by
      intro k v hk hv
      by_contra hc
      exact h ⟨k, v, hk, hv, (Bool.not_eq_false _).mp hc⟩
    have hidx := stringListIndex_none l hl extension (extensionTest ci) _
      (extensionTest_valid ci extension) hno
    exact ⟨false, l, by simp [stringListDeleteItemExtension, hidx, bind, Except.bind, pure,
      Except.pure]⟩

theorem stringListCombine_returns (l : stringList) (h : Sized l) (from_ : stringList)
    (hf : WF from_) (hsize : l.count + from_.count + 10 ≤ UINT_RANGE) :
    ∃ l', stringListCombine l from_ = Except.ok l' := by
  obtain ⟨fmax, fcount, flist⟩ := from_
  have hfs := hf.sized
  simp only [Sized, stringList.block] at hfs
  obtain ⟨hcm, hlen, hmax⟩ := hfs
  simp only at hsize
  cases flist with
  | none =>
    simp only [Option.getD_none, List.length_nil] at hlen
    have hc0 : fcount = 0 := by omega
    subst hc0
    exact ⟨l, by simp [stringListCombine, stringListCombineLoop, stringListDelete, bind,
      Except.bind, pure, Except.pure]⟩
  | some fb =>
    simp only [Option.getD_some] at hlen
    obtain ⟨l', fb', h1, _, _, _, h5, h6⟩ :=
      stringListCombineLoop_ok fmax fcount (by omega) (fcount + 1) 0 l fb h
        (by omega) (by omega) (by omega) (by omega)
    obtain ⟨b2, hclear, _, _⟩ := stringListClearLoop_ok fcount (by omega) (fcount + 1) 0 fb'
      (by omega) (by omega) (by omega) (by
        intro k _ hk
        rw [h6 k]
        simp [hk])
    exact ⟨l', by simp [stringListCombine, h1, stringListDelete, stringListClear, hclear, bind,
      Except.bind, pure, Except.pure]⟩

/-- C19: `count ≤ max` holds for the list `stringListNew` returns, and every mutating
operation applied within its precondition keeps it. Stated with the storage invariant
`Sized` (`count ≤ max`, the block has `max` slots, `max` is an `unsigned int`): the new
list satisfies it, and from a record that satisfies it each of `stringListAdd`,
`stringListRemoveLast`, `stringListClear`, `stringListDeleteItemExtension`,
`stringListReverse` and `stringListCombine` (for its destination) returns within its
precondition, and every result it returns satisfies the invariant and has `count ≤ max`.
For `stringListDeleteItemExtension` the return is shown with a free slot behind the
items. -/
theorem count_le_max_invariant (l : stringList) (h : Sized l) :
    (stringListCount stringListNew ≤ stringListNew.max ∧ Sized stringListNew) ∧
    ((l.count < l.max ∨ l.max + 10 < UINT_RANGE → ∀ p, ∃ l', stringListAdd l p = Except.ok l') ∧
      ∀ p l', stringListAdd l p = Except.ok l' → stringListCount l' ≤ l'.max ∧ Sized l') ∧
    ((0 < stringListCount l → ∃ l', stringListRemoveLast l = Except.ok l') ∧
      ∀ l', stringListRemoveLast l = Except.ok l' → stringListCount l' ≤ l'.max ∧ Sized l') ∧
    ((WF l → ∃ l', stringListClear l = Except.ok l') ∧
      ∀ l', stringListClear l = Except.ok l' → stringListCount l' ≤ l'.max ∧ Sized l') ∧
    ((WF l → l.count < l.max → l.count ≤ 2147483648 → ∀ ci extension,
        ∃ b l', stringListDeleteItemExtension ci l extension = Except.ok (b, l')) ∧
      ∀ ci extension b l', stringListDeleteItemExtension ci l extension = Except.ok (b, l') →
        stringListCount l' ≤ l'.max ∧ Sized l') ∧
    ((∃ l', stringListReverse l = Except.ok l') ∧
      ∀ l', stringListReverse l = Except.ok l' → stringListCount l' ≤ l'.max ∧ Sized l') ∧
    ((∀ from_, WF from_ → l.count + from_.count + 10 ≤ UINT_RANGE →
        ∃ l', stringListCombine l from_ = Except.ok l') ∧
      ∀ from_ l', stringListCombine l from_ = Except.ok l' →
        stringListCount l' ≤ l'.max ∧ Sized l') := by
  have hnew : Sized stringListNew := by
    simp [Sized, stringListNew, stringList.block, UINT_RANGE]
  refine ⟨⟨hnew.1, hnew⟩, ⟨?_, ?_⟩, ⟨?_, ?_⟩, ⟨?_, ?_⟩, ⟨?_, ?_⟩, ⟨?_, ?_⟩, ⟨?_, ?_⟩⟩
  · intro hroom p
    obtain ⟨l', h1, _⟩ := stringListAdd_ok l p h hroom
    exact ⟨l', h1⟩
  · intro p l' hok
    have := stringListAdd_sized l p h l' hok
    exact ⟨this.1, this⟩
  · exact stringListRemoveLast_returns l h
  · intro l' hok
    have := stringListRemoveLast_sized l h l' hok
    exact ⟨this.1, this⟩
  · exact stringListClear_returns l
  · intro l' hok
    have := stringListClear_sized l h l' hok
    exact ⟨this.1, this⟩
  · intro hl hroom hint ci extension
    exact stringListDeleteItemExtension_returns ci l hl hroom hint extension
  · intro ci extension b l' hok
    have := stringListDeleteItemExtension_sized ci l h extension b l' hok
    exact ⟨this.1, this⟩
  · exact stringListReverse_returns l h
  · intro l' hok
    have := stringListReverse_sized l h l' hok
    exact ⟨this.1, this⟩
  · intro from_ hf hsize
    exact stringListCombine_returns l h from_ hf hsize
  · intro from_ l' hok
    have := stringListCombine_sized l from_ h l' hok
    exact ⟨this.1, this⟩

/-- C19 at a concrete input: the record `["c", "cpp", "h"]`, on which each of the six
operations returns. -/
theorem count_le_max_invariant_witness :
    Sized (listOf ["c", "cpp", "h"]) ∧
    (stringListAdd (listOf ["c", "cpp", "h"]) vStringPtr.NULL).toBool = true ∧
    (stringListRemoveLast (listOf ["c", "cpp", "h"])).toBool = true ∧
    (stringListClear (listOf ["c", "cpp", "h"])).toBool = true ∧
    (stringListDeleteItemExtension false (listOf ["c", "cpp", "h"]) "cpp").toBool = true ∧
    (stringListReverse (listOf ["c", "cpp", "h"])).toBool = true ∧
    (stringListCombine (listOf ["c", "cpp", "h"]) (listOf ["hpp"])).toBool = true ∧
    (∀ p l', stringListAdd (listOf ["c", "cpp", "h"]) p = Except.ok l' →
      stringListCount l' ≤ l'.max ∧ Sized l') ∧
    (∀ ci extension b l',
      stringListDeleteItemExtension ci (listOf ["c", "cpp", "h"]) extension = Except.ok (b, l') →
      stringListCount l' ≤ l'.max ∧ Sized l') :=
  ⟨WF.sized (by decide), by decide, by decide, by decide, by decide, by decide, by decide,
    (count_le_max_invariant (listOf ["c", "cpp", "h"]) (WF.sized (by decide))).2.1.2,
    (count_le_max_invariant (listOf ["c", "cpp", "h"]) (WF.sized (by decide))).2.2.2.2.1.2⟩

/-! ## The growth policy of `stringListAdd` -/

/-- When `stringListAdd` returns, the capacity is the one the +10 policy gives, and the
record has storage. -/
theorem stringListAdd_max (l : stringList) (p : vStringPtr) (h : Sized l)
    (hroom : l.count < l.max ∨ l.max + 10 < UINT_RANGE)
    (l' : stringList) (hok : stringListAdd l p = Except.ok l') :
    l'.list ≠ none ∧
    l'.max = (if l.list = none then 10 else if l.count = l.max then l.max + 10 else l.max) := by
  obtain ⟨mx, ct, list⟩ := l
  obtain ⟨hcm, hlen, hmax⟩ := h
  simp only [stringList.block] at *
  unfold stringListAdd at hok
  cases list with
  | none =>
    simp only [Option.getD_none, List.length_nil] at hlen
    subst hlen
    simp only [if_true, Assert, beq_self_eq_true, bind, Except.bind, pure, Except.pure] at hok
    cases hw : writeSlot (some (xMalloc incrementalIncrease)) 0 p with
    | error e => simp [hw] at hok
    | ok list1 =>
      obtain ⟨b1, _, _, hr⟩ := writeSlot_eq_ok hw
      simp only [hw] at hok
      cases hok
      exact ⟨by simp [hr], rfl⟩
  | some b =>
    simp only [Option.getD_some] at hlen
    subst hlen
    by_cases hfull : ct = b.length
    · subst hfull
      have hmod : (b.length + incrementalIncrease) % UINT_RANGE = b.length + 10 := by
        unfold UINT_RANGE incrementalIncrease at *
        omega
      simp only [reduceCtorEq, if_false, if_true, pure, Except.pure, hmod, bind,
        Except.bind] at hok
      cases hw : writeSlot (some (xRealloc (some b) (b.length + 10))) b.length p with
      | error e => simp [hw] at hok
      | ok list1 =>
        obtain ⟨b1, _, _, hr⟩ := writeSlot_eq_ok hw
        simp only [hw] at hok
        cases hok
        exact ⟨by simp [hr], by simp⟩
    · simp only [reduceCtorEq, if_false, hfull, pure, Except.pure, bind, Except.bind] at hok
      cases hw : writeSlot (some b) ct p with
      | error e => simp [hw] at hok
      | ok list1 =>
        obtain ⟨b1, _, _, hr⟩ := writeSlot_eq_ok hw
        simp only [hw] at hok
        cases hok
        exact ⟨by simp [hr], by simp [hfull]⟩

/-- After the appends the capacity is the count rounded up to a multiple of 10. -/
theorem foldlM_stringListAdd_max (strings : List vStringPtr) :
    ∀ cur : stringList, Sized cur → cur.list ≠ none → 1 ≤ cur.count →
      cur.max = 10 * ((cur.count + 9) / 10) →
      cur.count + strings.length + 10 ≤ UINT_RANGE →
      ∃ l, strings.foldlM stringListAdd cur = Except.ok l ∧
        l.max = 10 * ((cur.count + strings.length + 9) / 10) := by
  induction strings with
  | nil =>
    intro cur _ _ _ hmax _
    exact ⟨cur, rfl, by simpa using hmax⟩
  | cons p rest ih =>
    intro cur h hlist hpos hmax hb
    simp only [List.length_cons] at hb
    have hroom : cur.count < cur.max ∨ cur.max + 10 < UINT_RANGE := by
      have := h.1
      omega
    obtain ⟨l1, h1, hs1, hc1, _⟩ := stringListAdd_ok cur p h hroom
    obtain ⟨hl1, hm1⟩ := stringListAdd_max cur p h hroom l1 h1
    rw [if_neg hlist] at hm1
    have hmax1 : l1.max = 10 * ((l1.count + 9) / 10) := by
      rw [hm1, hc1]
      have := h.1
      split_ifs <;> omega
    obtain ⟨l2, h2, hm2⟩ := ih l1 hs1 hl1 (by omega) hmax1 (by omega)
    refine ⟨l2, ?_, ?_⟩
    · simp [List.foldlM, h1, h2, bind, Except.bind]
    · rw [hm2, hc1, List.length_cons]
      congr 2
      omega

/-- C20: `stringListAdd` follows the +10 growth policy: on a list without storage it
returns with capacity 10, on a list with storage and `count = max` with capacity `max + 10`,
otherwise with the capacity unchanged (the counters staying in the range of an
`unsigned int`); so after `n ≥ 1` appends to a new list the capacity is `10 * ⌈n / 10⌉`. -/
theorem stringListAdd_growth_policy (l : stringList) (h : Sized l) (p : vStringPtr)
    (hroom : l.count < l.max ∨ l.max + 10 < UINT_RANGE)
    (strings : List vStringPtr) (hn1 : 1 ≤ strings.length)
    (hn : strings.length + 10 ≤ UINT_RANGE) :
    (∃ l', stringListAdd l p = Except.ok l' ∧
      l'.max = (if l.list = none then 10
        else if l.count = l.max then l.max + 10 else l.max)) ∧
    (∃ r, addAll strings = Except.ok r ∧ r.max = 10 * ((strings.length + 9) / 10)) := by
  constructor
  · obtain ⟨l', h1, _, _, _⟩ := stringListAdd_ok l p h hroom
    exact ⟨l', h1, (stringListAdd_max l p h hroom l' h1).2⟩
  · cases strings with
    | nil => simp at hn1
    | cons q rest =>
      simp only [List.length_cons] at hn
      have hnew : Sized stringListNew := by
        simp [Sized, stringListNew, stringList.block, UINT_RANGE]
      have hroom0 : stringListNew.count < stringListNew.max ∨
          stringListNew.max + 10 < UINT_RANGE := by
        right
        simp [stringListNew, UINT_RANGE]
      obtain ⟨l1, h1, hs1, hc1, _⟩ := stringListAdd_ok stringListNew q hnew hroom0
      obtain ⟨hl1, hm1⟩ := stringListAdd_max stringListNew q hnew hroom0 l1 h1
      have hc1' : l1.count = 1 := by simpa [stringListNew] using hc1
      have hm1' : l1.max = 10 := by simpa [stringListNew] using hm1
      obtain ⟨r, h2, hm2⟩ := foldlM_stringListAdd_max rest l1 hs1 hl1 (by omega)
        (by rw [hm1', hc1']) (by omega)
      refine ⟨r, ?_, ?_⟩
      · simp [addAll, List.foldlM, h1, h2, bind, Except.bind]
      · rw [hm2, hc1', List.length_cons]
        congr 2
        omega

/-- C20 at a concrete input: an append to the full record of ten items grows the capacity
to 20, and after eleven appends to a new list the capacity is 20. -/
theorem stringListAdd_growth_policy_witness :
    Sized (listOf ["c", "cpp", "h", "hpp", "cc", "cxx", "hh", "hxx", "inl", "ipp"]) ∧
    ((∃ l', stringListAdd
          (listOf ["c", "cpp", "h", "hpp", "cc", "cxx", "hh", "hxx", "inl", "ipp"])
          vStringPtr.NULL = Except.ok l' ∧
      l'.max = (if (listOf ["c", "cpp", "h", "hpp", "cc", "cxx", "hh", "hxx", "inl", "ipp"]).list
            = none then 10
        else if (listOf ["c", "cpp", "h", "hpp", "cc", "cxx", "hh", "hxx", "inl", "ipp"]).count
            = (listOf ["c", "cpp", "h", "hpp", "cc", "cxx", "hh", "hxx", "inl", "ipp"]).max
          then (listOf ["c", "cpp", "h", "hpp", "cc", "cxx", "hh", "hxx", "inl", "ipp"]).max + 10
        else (listOf ["c", "cpp", "h", "hpp", "cc", "cxx", "hh", "hxx", "inl", "ipp"]).max)) ∧
    (∃ r, addAll (List.replicate 11 vStringPtr.NULL) = Except.ok r ∧
      r.max = 10 * (((List.replicate 11 vStringPtr.NULL).length + 9) / 10))) ∧
    (stringListAdd (listOf ["c", "cpp", "h", "hpp", "cc", "cxx", "hh", "hxx", "inl", "ipp"])
        vStringPtr.NULL).map (fun l => l.max) = Except.ok 20 ∧
    (stringListAdd stringListNew vStringPtr.NULL).map (fun l => l.max) = Except.ok 10 ∧
    (stringListAdd (listOf ["c"]) vStringPtr.NULL).map (fun l => l.max) = Except.ok 10 ∧
    (addAll (List.replicate 11 vStringPtr.NULL)).map (fun l => l.max) = Except.ok 20 :=
  ⟨WF.sized (by decide),
    stringListAdd_growth_policy _ (WF.sized (by decide)) vStringPtr.NULL (by decide)
      (List.replicate 11 vStringPtr.NULL) (by decide) (by decide),
    by decide, by decide, by decide, by decide⟩

/-! ## Reading a list from a file -/

theorem linesOf_ne_nil (cs : List Char) : linesOf cs ≠ [] := by
  induction cs with
  | nil => simp [linesOf]
  | cons c cs ih =>
    unfold linesOf
    split_ifs
    · simp
    · cases h : linesOf cs with
      | nil => exact absurd h ih
      | cons l ls => simp

/-- What `takeLine` returns in terms of the lines of the text: either the data ends before
a newline and the text is its only line, or the line read is the first line with its
newline and the stream goes on with the other lines. -/
theorem takeLine_linesOf (cs : List Char) :
    ((takeLine cs).2.2 = true ∧ (takeLine cs).1 = cs ∧ (takeLine cs).2.1 = [] ∧
        linesOf cs = [cs]) ∨
    ((takeLine cs).2.2 = false ∧
      ∃ l0, (takeLine cs).1 = l0 ++ [newline] ∧
        linesOf cs = l0 :: linesOf (takeLine cs).2.1 ∧
        (takeLine cs).2.1.length < cs.length) := by
  induction cs with
  | nil => left; simp [takeLine, linesOf]
  | cons c cs ih =>
    by_cases hc : c = newline
    · right
      refine ⟨by simp [takeLine, hc], [], by simp [takeLine, hc], by simp [takeLine, linesOf, hc],
        by simp [takeLine, hc]⟩
    · rcases ih with ⟨h1, h2, h3, h4⟩ | ⟨h1, l0, h2, h3, h4⟩
      · left
        refine ⟨by simp [takeLine, hc, h1], by simp [takeLine, hc, h2],
          by simp [takeLine, hc, h3], by simp [linesOf, hc, h4]⟩
      · right
        refine ⟨by simp [takeLine, hc, h1], c :: l0, by simp [takeLine, hc, h2],
          by simp [takeLine, linesOf, hc, h3], ?_⟩
        simp only [takeLine, hc, if_false, List.length_cons]
        omega

theorem stripTrailing_newline (l : List Char) :
    stripTrailing (l ++ [newline]) = stripTrailing l := by
  simp [stripTrailing, List.dropWhile, isspace]

theorem nonBlankLines_cons (l0 : List Char) (rest : List (List Char)) :
    (((l0 :: rest).map stripTrailing).filter (fun l => !l.isEmpty)).map String.mk
      = (if (stripTrailing l0).length > 0 then [String.mk (stripTrailing l0)] else []) ++
        ((rest.map stripTrailing).filter (fun l => !l.isEmpty)).map String.mk := by
  cases h : stripTrailing l0 with
  | nil => simp [h]
  | cons c cs => simp [h]

/-- The loop of `stringListNewFromFile` on a stream that has not met its end appends
the non-blank lines of the rest of the stream, trimmed, in order. -/
theorem stringListNewFromFileLoop_ok :
    ∀ (fuel : Nat) (rest : List Char) (result : stringList), Sized result →
      rest.length + 1 < fuel →
      result.count + (nonBlankLines rest).length + 10 ≤ UINT_RANGE →
      ∃ l, stringListNewFromFileLoop fuel ⟨rest, false⟩ result = Except.ok l ∧ Sized l ∧
        l.count = result.count + (nonBlankLines rest).length ∧
        l.items = result.items ++
          (nonBlankLines rest).map (fun s => vStringPtr.valid (vString.mk s)) := by
  intro fuel
  induction fuel with
  | zero => intro rest result _ h; omega
  | succ fuel ih =>
    intro rest result hs hfuel hsize
    unfold stringListNewFromFileLoop
    simp only [feof, Bool.not_false, if_true, readLine, vStringNew, vStringStripTrailing,
      vStringLength, Bool.false_or]
    rcases takeLine_linesOf rest with ⟨h1, h2, h3, h4⟩ | ⟨h1, l0, h2, h3, h4⟩
    · -- the data ends in this line
      have hnb : nonBlankLines rest
          = if (stripTrailing rest).length > 0 then [String.mk (stripTrailing rest)] else [] := by
        unfold nonBlankLines
        rw [h4, nonBlankLines_cons]
        simp
      have hend : ∀ r : stringList,
          stringListNewFromFileLoop fuel ⟨[], true⟩ r = Except.ok r := by
        intro r
        cases fuel with
        | zero => omega
        | succ fuel => simp [stringListNewFromFileLoop, feof, pure, Except.pure]
      rw [h1, h2, h3]
      by_cases hlen : (stripTrailing rest).length > 0
      · have hnb' : nonBlankLines rest = [String.mk (stripTrailing rest)] := by
          rw [hnb, if_pos hlen]
        rw [hnb'] at hsize ⊢
        obtain ⟨l1, ha, hs1, hc1, hi1⟩ := stringListAdd_ok result
          (vStringPtr.valid (vString.mk (String.mk (stripTrailing rest)))) hs (by
            have := hs.1
            simp only [List.length_singleton] at hsize
            omega)
        refine ⟨l1, ?_, hs1, by simpa using hc1, by simpa using hi1⟩
        simp only [hlen, if_true, ha, bind, Except.bind, hend]
      · have hnb' : nonBlankLines rest = [] := by
          rw [hnb, if_neg hlen]
        rw [hnb']
        refine ⟨result, ?_, hs, by simp, by simp⟩
        simp only [hlen, if_false, vStringDelete, bind, Except.bind, pure, Except.pure, hend]
    · -- a line with its newline, the stream goes on
      have hnb : nonBlankLines rest
          = (if (stripTrailing l0).length > 0 then [String.mk (stripTrailing l0)] else [])
            ++ nonBlankLines (takeLine rest).2.1 := by
        unfold nonBlankLines
        rw [h3, nonBlankLines_cons]
      rw [h1, h2, stripTrailing_newline]
      by_cases hlen : (stripTrailing l0).length > 0
      · have hnb' : nonBlankLines rest
            = [String.mk (stripTrailing l0)] ++ nonBlankLines (takeLine rest).2.1 := by
          rw [hnb, if_pos hlen]
        rw [hnb'] at hsize ⊢
        simp only [List.length_append, List.length_singleton] at hsize
        obtain ⟨l1, ha, hs1, hc1, hi1⟩ := stringListAdd_ok result
          (vStringPtr.valid (vString.mk (String.mk (stripTrailing l0)))) hs (by
            have := hs.1
            omega)
        obtain ⟨l2, h5, hs2, hc2, hi2⟩ := ih (takeLine rest).2.1 l1 hs1 (by omega) (by omega)
        refine ⟨l2, ?_, hs2, ?_, ?_⟩
        · simp only [hlen, if_true, ha, bind, Except.bind, h5]
        · rw [hc2, hc1]
          simp only [List.length_append, List.length_singleton]
          omega
        · rw [hi2, hi1]
          simp
      · have hnb' : nonBlankLines rest = nonBlankLines (takeLine rest).2.1 := by
          rw [hnb, if_neg hlen, List.nil_append]
        rw [hnb'] at hsize ⊢
        obtain ⟨l2, h5, hs2, hc2, hi2⟩ := ih (takeLine rest).2.1 result hs (by omega) hsize
        refine ⟨l2, ?_, hs2, hc2, hi2⟩
        simp only [hlen, if_false, vStringDelete, bind, Except.bind, pure, Except.pure, h5]

/-- C14: for every file that can be opened (the number of its non-blank lines staying in
the range of the `unsigned int` counters), `stringListNewFromFile` returns a list whose
items are exactly the lines of the file with trailing whitespace removed, the lines that
are then empty left out, in file order; so the count is the number of non-blank lines. -/
theorem stringListNewFromFile_lines (fs : String → Option (List Char)) (fileName : String)
    (content : List Char) (hopen : fs fileName = some content)
    (hsize : (nonBlankLines content).length + 10 ≤ UINT_RANGE) :
    ∃ l, stringListNewFromFile fs fileName = Except.ok (some l) ∧
      stringListCount l = (nonBlankLines content).length ∧
      l.items = (nonBlankLines content).map (fun s => vStringPtr.valid (vString.mk s)) := by
  obtain ⟨l, h1, _, hc, hi⟩ := stringListNewFromFileLoop_ok (content.length + 2) content
    stringListNew (by simp [Sized, stringListNew, stringList.block, UINT_RANGE]) (by omega)
    (by simpa [stringListNew] using hsize)
  refine ⟨l, ?_, by simpa [stringListCount, stringListNew] using hc,
    by simpa [stringListNew, stringList.items, stringList.block] using hi⟩
  simp [stringListNewFromFile, fopen, hopen, h1, bind, Except.bind, pure, Except.pure]

/-- C14 at a concrete input: the file holding `a`, newline, newline, `b`, two spaces,
newline gives exactly `["a", "b"]`; a file that cannot be opened gives no list. -/
theorem stringListNewFromFile_lines_witness :
    (fun _ => some exampleFile : String → Option (List Char)) "list.txt" = some exampleFile ∧
    (nonBlankLines exampleFile).length + 10 ≤ UINT_RANGE ∧
    (∃ l, stringListNewFromFile (fun _ => some exampleFile) "list.txt" = Except.ok (some l) ∧
      stringListCount l = (nonBlankLines exampleFile).length ∧
      l.items = (nonBlankLines exampleFile).map (fun s => vStringPtr.valid (vString.mk s))) ∧
    nonBlankLines exampleFile = ["a", "b"] ∧
    stringListNewFromFile (fun _ => some exampleFile) "list.txt"
      = Except.ok (some (listOf ["a", "b"])) ∧
    stringListNewFromFile (fun _ => none) "list.txt" = Except.ok none :=
  ⟨rfl, by decide,
    stringListNewFromFile_lines (fun _ => some exampleFile) "list.txt" exampleFile rfl
      (by decide),
    by decide, by decide, by decide⟩

end Strlist
